import Mathlib

/-!
Verification development for the DeLorean repository-history miner.

The program walks a git repository's commit history, diffs successive tree
snapshots at JSON-array file paths, extracts keyed record maps, classifies
per-key change events (added / removed / modified), and emits per-path
timelines.  This file gives a shallow embedding of `src/main.rs`:

* `deep_diff_json`, `get_json_data`-style extraction, and
  `update_change_record_entry` are translated directly from the source.
* The libgit2 revwalk (with `Sort::TIME`) is modelled as the standard
  priority-queue walk over commit timestamps: pop the discovered commit of
  maximal timestamp, yield it, enqueue its not-yet-seen parents.
* Blobs are modelled post-parse (a blob is the parsed JSON array it holds);
  `serde_json` parsing itself is an external collaborator.  Blob identity in
  tree diffs is syntactic equality of the parsed value, modelling git's
  byte-level content identity.
* HashMap / HashSet iteration order is not fixed by Rust; the embedding
  threads explicit reorder oracles (`MapOrder`, `SetOrder`) through every
  loop that iterates a hash container, so that order (in)dependence can be
  stated and proved rather than assumed.
* The glob include filter is consumed as an opaque predicate
  (`includeMatch`), exactly as the specification externalizes it.
-/

/-- Lexicographic byte-style comparison of two character lists (by Unicode
scalar value), modelling Rust's `Ord` on `String` for key sorting. -/
def strLeChars : List Char → List Char → Bool
  | [], _ => true
  | _ :: _, [] => false
  | c :: cs, d :: ds =>
    if c.toNat < d.toNat then true
    else if d.toNat < c.toNat then false
    else strLeChars cs ds

/-- Lexicographic order on strings, used wherever the source sorts keys
(`Vec::sort` on `&String`, `sorted_by_key`). -/
def strLe (a b : String) : Bool :=
  strLeChars a.data b.data

/-- Propositional form of `strLe`, for use with `List.insertionSort`. -/
def strLeP (a b : String) : Prop := strLe a b = true

instance : DecidableRel strLeP := fun a b => instDecidableEqBool (strLe a b) true

theorem strLeChars_total : ∀ cs ds, strLeChars cs ds = true ∨ strLeChars ds cs = true := by
  intro cs
  induction cs with
  | nil => intro ds; left; rfl
  | cons c cs ih =>
    intro ds
    cases ds with
    | nil => right; rfl
    | cons d ds =>
      simp only [strLeChars]
      rcases Nat.lt_trichotomy c.toNat d.toNat with h | h | h
      · left; simp [h]
      · have hlt1 : ¬ c.toNat < d.toNat := by omega
        have hlt2 : ¬ d.toNat < c.toNat := by omega
        simp [hlt1, hlt2]
        exact ih ds
      · right; simp [h]

theorem strLeChars_trans :
    ∀ as1 bs cs, strLeChars as1 bs = true → strLeChars bs cs = true →
      strLeChars as1 cs = true := by
  intro as1
  induction as1 with
  | nil => intro bs cs _ _; rfl
  | cons a as1 ih =>
    intro bs cs hab hbc
    cases bs with
    | nil => simp [strLeChars] at hab
    | cons b bs =>
      cases cs with
      | nil => simp [strLeChars] at hbc
      | cons c cs =>
        simp only [strLeChars] at hab hbc ⊢
        by_cases h1 : a.toNat < b.toNat
        · by_cases h2 : b.toNat < c.toNat
          · have : a.toNat < c.toNat := by omega
            simp [this]
          · by_cases h3 : c.toNat < b.toNat
            · simp [h2, h3] at hbc
            · have : a.toNat < c.toNat := by omega
              simp [this]
        · by_cases h1b : b.toNat < a.toNat
          · simp [h1, h1b] at hab
          · simp [h1, h1b] at hab
            by_cases h2 : b.toNat < c.toNat
            · have : a.toNat < c.toNat := by omega
              simp [this]
            · by_cases h3 : c.toNat < b.toNat
              · simp [h2, h3] at hbc
              · have h4 : ¬ a.toNat < c.toNat := by omega
                have h5 : ¬ c.toNat < a.toNat := by omega
                simp [h2, h3] at hbc
                simp [h4, h5]
                exact ih bs cs hab hbc

theorem char_eq_of_toNat_eq {a b : Char} (h : a.toNat = b.toNat) : a = b := by
  rw [← Char.ofNat_toNat a, ← Char.ofNat_toNat b, h]

theorem strLeChars_antisymm :
    ∀ as1 bs, strLeChars as1 bs = true → strLeChars bs as1 = true → as1 = bs := by
  intro as1
  induction as1 with
  | nil =>
    intro bs _ hba
    cases bs with
    | nil => rfl
    | cons b bs => simp [strLeChars] at hba
  | cons a as1 ih =>
    intro bs hab hba
    cases bs with
    | nil => simp [strLeChars] at hab
    | cons b bs =>
      simp only [strLeChars] at hab hba
      by_cases h1 : a.toNat < b.toNat
      · have h2 : ¬ b.toNat < a.toNat := by omega
        simp [h1, h2] at hba
      · by_cases h2 : b.toNat < a.toNat
        · simp [h1, h2] at hab
        · have hc : a = b := char_eq_of_toNat_eq (by omega)
          simp [h1, h2] at hab hba
          exact congrArg₂ _ hc (ih bs hab hba)

instance : IsTotal String strLeP :=
  ⟨fun a b => strLeChars_total a.data b.data⟩

instance : IsTrans String strLeP :=
  ⟨fun a b c => strLeChars_trans a.data b.data c.data⟩

instance : IsAntisymm String strLeP :=
  ⟨fun a b hab hba => by
    have h := strLeChars_antisymm a.data b.data hab hba
    cases a; cases b
    exact congrArg String.mk h⟩

/-- Association-list lookup with string keys, modelling `Map::get` /
`HashMap::get`. -/
def alookup {β : Type} (k : String) : List (String × β) → Option β
  | [] => none
  | (k2, v) :: rest => if k2 = k then some v else alookup k rest

theorem alookup_isSome_iff_mem {β : Type} (k : String) (l : List (String × β)) :
    (alookup k l).isSome = true ↔ k ∈ l.map Prod.fst := by
  induction l with
  | nil => simp [alookup]
  | cons p rest ih =>
    obtain ⟨k2, v⟩ := p
    by_cases h : k2 = k
    · subst h
      simp [alookup]
    · simp [alookup, h, ih, Ne.symm h]

theorem alookup_eq_none_iff_not_mem {β : Type} (k : String) (l : List (String × β)) :
    alookup k l = none ↔ k ∉ l.map Prod.fst := by
  rw [← alookup_isSome_iff_mem]
  cases alookup k l <;> simp

theorem alookup_mem {β : Type} {k : String} {l : List (String × β)} {v : β}
    (h : alookup k l = some v) : (k, v) ∈ l := by
  induction l with
  | nil => simp [alookup] at h
  | cons p rest ih =>
    obtain ⟨k2, w⟩ := p
    by_cases hk : k2 = k
    · subst hk
      simp [alookup] at h
      simp [h]
    · simp [alookup, hk] at h
      exact List.mem_cons_of_mem _ (ih h)

/-- Structured JSON value, modelling `serde_json::Value`.  Numbers are
modelled as integers (floating-point content plays no role in any claim);
objects are ordered association lists with (well-formedness) unique keys. -/
inductive Json where
  | null
  | jbool (b : Bool)
  | num (n : Int)
  | str (s : String)
  | arr (xs : List Json)
  | obj (kvs : List (String × Json))

mutual

/-- Syntactic equality of JSON values.  Used to model git's byte-level blob
identity when diffing two trees (two blobs are "the same file content" iff
their parsed values are syntactically identical). -/
def jsonBeq : Json → Json → Bool
  | .null, .null => true
  | .jbool a, .jbool b => a = b
  | .num a, .num b => a = b
  | .str a, .str b => a = b
  | .arr a, .arr b => jsonListBeq a b
  | .obj a, .obj b => jsonKVBeq a b
  | _, _ => false

def jsonListBeq : List Json → List Json → Bool
  | [], [] => true
  | a :: as1, b :: bs => jsonBeq a b && jsonListBeq as1 bs
  | _, _ => false

def jsonKVBeq : List (String × Json) → List (String × Json) → Bool
  | [], [] => true
  | (k1, v1) :: as1, (k2, v2) :: bs => k1 = k2 && jsonBeq v1 v2 && jsonKVBeq as1 bs
  | _, _ => false
end

/-- Sorted list of an object's keys: models
`let mut keys = obj.keys().collect(); keys.sort()` in `deep_diff_json`. -/
def sortKeys (kvs : List (String × Json)) : List String :=
  List.insertionSort strLeP (kvs.map Prod.fst)

mutual

/-- Translation of `deep_diff_json` from `src/main.rs` (returns `true` iff
the two values differ).  The object case first compares the two sorted key
lists by length and pairwise equality, then recurses into each old entry
through `Map::get` on the new object; the array case compares lengths and
then recurses pairwise; every other shape pair falls through to literal
value comparison (`old_val != new_val`). -/
def deep_diff_json : Json → Json → Bool
  | .obj old_obj, .obj new_obj =>
    let old_keys := sortKeys old_obj
    let new_keys := sortKeys new_obj
    if old_keys.length ≠ new_keys.length
        || (old_keys.zip new_keys).any (fun p => p.1 ≠ p.2) then true
    else objEntriesDiff old_obj new_obj
  | .arr old_arr, .arr new_arr =>
    if old_arr.length ≠ new_arr.length then true
    else arrZipDiff old_arr new_arr
  | .null, .null => false
  | .jbool a, .jbool b => a ≠ b
  | .num a, .num b => a ≠ b
  | .str a, .str b => a ≠ b
  | _, _ => true

/-- The `for (key, old_val) in old_obj` loop of `deep_diff_json`: returns
`true` as soon as a key is missing from the new object or a shared key's
values recursively differ. -/
def objEntriesDiff : List (String × Json) → List (String × Json) → Bool
  | [], _ => false
  | (key, old_val) :: rest, new_obj =>
    (match alookup key new_obj with
     | some new_val => deep_diff_json old_val new_val
     | none => true)
    || objEntriesDiff rest new_obj

/-- The zipped array loop of `deep_diff_json` (lengths are checked before
this runs, so the uneven tails are unreachable). -/
def arrZipDiff : List Json → List Json → Bool
  | old_val :: old_rest, new_val :: new_rest =>
    deep_diff_json old_val new_val || arrZipDiff old_rest new_rest
  | _, _ => false
end

example : deep_diff_json (.obj [("a", .num 1), ("b", .num 2)])
    (.obj [("b", .num 2), ("a", .num 1)]) = false := by decide
example : deep_diff_json (.arr [.num 1, .num 2]) (.arr [.num 2, .num 1]) = true := by decide
example : deep_diff_json (.obj [("a", .num 1)]) (.obj [("a", .num 1), ("b", .num 2)]) = true := by
  decide

mutual

/-- Structural equality as the specification defines it (spec section 4.4):
two mappings are equal iff their key sets are identical as sets (insertion
order irrelevant) and every shared key's values are recursively equal; two
sequences are equal iff same length and pairwise recursively equal in
order; any other pair is equal iff exactly equal by type and literal
value.  Written from the spec's words, to be compared with the source
translation `deep_diff_json`. -/
def structEq : Json → Json → Bool
  | .obj a, .obj b =>
    (a.map Prod.fst).all (fun k => decide (k ∈ b.map Prod.fst))
      && (b.map Prod.fst).all (fun k => decide (k ∈ a.map Prod.fst))
      && sharedKeysEq a b
  | .arr a, .arr b => decide (a.length = b.length) && structEqZip a b
  | .null, .null => true
  | .jbool a, .jbool b => a = b
  | .num a, .num b => a = b
  | .str a, .str b => a = b
  | _, _ => false

/-- Recursive equality at every shared key (keys of the first object that
also occur in the second); keys present on one side only are ignored here,
the key-set check handles them. -/
def sharedKeysEq : List (String × Json) → List (String × Json) → Bool
  | [], _ => true
  | (k, v) :: rest, b =>
    (match alookup k b with
     | some w => structEq v w
     | none => true)
    && sharedKeysEq rest b

/-- Pairwise recursive equality of two sequences of equal length. -/
def structEqZip : List Json → List Json → Bool
  | [], [] => true
  | x :: xs, y :: ys => structEq x y && structEqZip xs ys
  | _, _ => false
end

mutual

/-- Well-formedness of a JSON value as produced by `serde_json`: every
object (recursively) has pairwise-distinct keys. -/
def wfJson : Json → Bool
  | .obj kvs => decide ((kvs.map Prod.fst).Nodup) && wfKVs kvs
  | .arr xs => wfList xs
  | _ => true

/-- Well-formedness of every value of an object's entry list. -/
def wfKVs : List (String × Json) → Bool
  | [] => true
  | (_, v) :: rest => wfJson v && wfKVs rest

/-- Well-formedness of every element of an array. -/
def wfList : List Json → Bool
  | [] => true
  | x :: xs => wfJson x && wfList xs
end

example : structEq (.obj [("a", .num 1), ("b", .num 2)])
    (.obj [("b", .num 2), ("a", .num 1)]) = true := by decide
example : structEq (.arr [.num 1, .num 2]) (.arr [.num 2, .num 1]) = false := by decide
example : wfJson (.obj [("a", .num 1), ("b", .num 2)]) = true := by decide

theorem json_sizeOf_pos (a : Json) : 0 < sizeOf a := by
  cases a <;> simp_arith

theorem sizeOf_val_lt_obj {k : String} {v : Json} {kvs : List (String × Json)}
    (h : (k, v) ∈ kvs) : sizeOf v < sizeOf (Json.obj kvs) := by
  have h1 := List.sizeOf_lt_of_mem h
  simp only [Json.obj.sizeOf_spec]
  simp only [Prod.mk.sizeOf_spec] at h1
  omega

theorem sizeOf_elem_lt_arr {v : Json} {xs : List Json}
    (h : v ∈ xs) : sizeOf v < sizeOf (Json.arr xs) := by
  have h1 := List.sizeOf_lt_of_mem h
  simp only [Json.arr.sizeOf_spec]
  omega

theorem wfKVs_mem {kvs : List (String × Json)} {k : String} {v : Json}
    (hwf : wfKVs kvs = true) (h : (k, v) ∈ kvs) : wfJson v = true := by
  induction kvs with
  | nil => simp at h
  | cons p rest ih =>
    obtain ⟨k2, v2⟩ := p
    simp only [wfKVs, Bool.and_eq_true] at hwf
    rcases List.mem_cons.mp h with h | h
    · cases h; exact hwf.1
    · exact ih hwf.2 h

theorem wfList_mem {xs : List Json} {v : Json}
    (hwf : wfList xs = true) (h : v ∈ xs) : wfJson v = true := by
  induction xs with
  | nil => simp at h
  | cons x rest ih =>
    simp only [wfList, Bool.and_eq_true] at hwf
    rcases List.mem_cons.mp h with h | h
    · cases h; exact hwf.1
    · exact ih hwf.2 h

theorem wf_obj_parts {kvs : List (String × Json)} (h : wfJson (.obj kvs) = true) :
    (kvs.map Prod.fst).Nodup ∧ wfKVs kvs = true := by
  simp only [wfJson, Bool.and_eq_true, decide_eq_true_eq] at h
  exact h

theorem wf_arr_parts {xs : List Json} (h : wfJson (.arr xs) = true) :
    wfList xs = true := by
  simpa only [wfJson] using h

theorem len_zip_eq_iff : ∀ (l1 l2 : List String),
    (l1.length = l2.length ∧ ∀ p ∈ l1.zip l2, p.1 = p.2) ↔ l1 = l2 := by
  intro l1
  induction l1 with
  | nil =>
    intro l2
    cases l2 with
    | nil => simp
    | cons b bs => simp
  | cons a as1 ih =>
    intro l2
    cases l2 with
    | nil => simp
    | cons b bs =>
      simp only [List.zip_cons_cons, List.mem_cons, List.length_cons, List.cons.injEq]
      constructor
      · rintro ⟨hlen, hp⟩
        have hab : a = b := hp (a, b) (Or.inl rfl)
        have := (ih bs).mp ⟨by omega, fun p hm => hp p (Or.inr hm)⟩
        exact ⟨hab, this⟩
      · rintro ⟨hab, htl⟩
        subst hab; subst htl
        exact ⟨rfl, by
          intro p hm
          rcases hm with h | h
          · subst h; rfl
          · exact ((ih as1).mpr rfl).2 p h⟩

theorem keysCheck_eq_false_iff (l1 l2 : List String) :
    ((l1.length ≠ l2.length
      || (l1.zip l2).any (fun p => p.1 ≠ p.2) : Bool)) = false ↔ l1 = l2 := by
  rw [← len_zip_eq_iff l1 l2]
  simp [List.any_eq_false]

theorem ddj_obj (oa ob : List (String × Json)) :
    deep_diff_json (.obj oa) (.obj ob)
      = if sortKeys oa = sortKeys ob then objEntriesDiff oa ob else true := by
  simp only [deep_diff_json]
  by_cases h : sortKeys oa = sortKeys ob
  · have := (keysCheck_eq_false_iff (sortKeys oa) (sortKeys ob)).mpr h
    rw [this]
    simp [h]
  · have hne : ((sortKeys oa).length ≠ (sortKeys ob).length
        || ((sortKeys oa).zip (sortKeys ob)).any (fun p => p.1 ≠ p.2) : Bool) = true := by
      cases hc : ((sortKeys oa).length ≠ (sortKeys ob).length
        || ((sortKeys oa).zip (sortKeys ob)).any (fun p => p.1 ≠ p.2) : Bool)
      · exact absurd ((keysCheck_eq_false_iff _ _).mp hc) h
      · rfl
    rw [hne]
    simp [h]

theorem sortKeys_eq_iff {oa ob : List (String × Json)}
    (ha : (oa.map Prod.fst).Nodup) (hb : (ob.map Prod.fst).Nodup) :
    sortKeys oa = sortKeys ob
      ↔ ∀ k, k ∈ oa.map Prod.fst ↔ k ∈ ob.map Prod.fst := by
  constructor
  · intro h k
    have p1 := List.perm_insertionSort strLeP (oa.map Prod.fst)
    have p2 := List.perm_insertionSort strLeP (ob.map Prod.fst)
    rw [← p1.mem_iff, ← p2.mem_iff]
    unfold sortKeys at h
    rw [h]
  · intro h
    have hperm : (oa.map Prod.fst).Perm (ob.map Prod.fst) :=
      (List.perm_ext_iff_of_nodup ha hb).mpr h
    have p1 := List.perm_insertionSort strLeP (oa.map Prod.fst)
    have p2 := List.perm_insertionSort strLeP (ob.map Prod.fst)
    exact List.eq_of_perm_of_sorted ((p1.trans hperm).trans p2.symm)
      (List.sorted_insertionSort strLeP _) (List.sorted_insertionSort strLeP _)

theorem objLoop_iff : ∀ (as1 bs : List (String × Json)),
    (∀ k v w, (k, v) ∈ as1 → alookup k bs = some w →
      (deep_diff_json v w = false ↔ structEq v w = true)) →
    (∀ k, k ∈ as1.map Prod.fst → k ∈ bs.map Prod.fst) →
    (objEntriesDiff as1 bs = false ↔ sharedKeysEq as1 bs = true) := by
  intro as1 bs
  induction as1 with
  | nil =>
    intro _ _
    simp [objEntriesDiff, sharedKeysEq]
  | cons p rest ih =>
    obtain ⟨k, v⟩ := p
    intro hpt hmem
    have hk : k ∈ bs.map Prod.fst := hmem k (by simp)
    obtain ⟨w, hw⟩ : ∃ w, alookup k bs = some w := by
      have hsome := (alookup_isSome_iff_mem k bs).mpr hk
      cases hc : alookup k bs
      · rw [hc] at hsome; simp at hsome
      · exact ⟨_, rfl⟩
    simp only [objEntriesDiff, sharedKeysEq, hw]
    rw [Bool.or_eq_false_iff, Bool.and_eq_true]
    have h1 := hpt k v w (by simp) hw
    have h2 := ih (fun k2 v2 w2 hm hl => hpt k2 v2 w2 (List.mem_cons_of_mem _ hm) hl)
      (fun k2 hm => hmem k2 (by simp only [List.map_cons, List.mem_cons]; exact Or.inr hm))
    rw [h1, h2]

theorem arrZip_iff : ∀ (xs ys : List Json),
    xs.length = ys.length →
    (∀ p, p ∈ xs.zip ys →
      (deep_diff_json p.1 p.2 = false ↔ structEq p.1 p.2 = true)) →
    (arrZipDiff xs ys = false ↔ structEqZip xs ys = true) := by
  intro xs
  induction xs with
  | nil =>
    intro ys hlen _
    cases ys with
    | nil => simp [arrZipDiff, structEqZip]
    | cons y ys => simp at hlen
  | cons x rest ih =>
    intro ys hlen hpt
    cases ys with
    | nil => simp at hlen
    | cons y ys =>
      simp only [arrZipDiff, structEqZip]
      rw [Bool.or_eq_false_iff, Bool.and_eq_true]
      have h1 := hpt (x, y) (by simp)
      have h2 := ih ys (by simpa using hlen)
        (fun p hm => hpt p (by simp only [List.zip_cons_cons, List.mem_cons]; exact Or.inr hm))
      rw [h1, h2]

theorem bool_eq_not_of_iff {x y : Bool} (h : x = false ↔ y = true) : x = !y := by
  cases x <;> cases y <;> simp_all

theorem ddj_iff_structEq_aux : ∀ (n : Nat) (a b : Json), sizeOf a ≤ n →
    wfJson a = true → wfJson b = true →
    (deep_diff_json a b = false ↔ structEq a b = true) := by
  intro n
  induction n with
  | zero =>
    intro a _ hsz _ _
    exact absurd hsz (by have := json_sizeOf_pos a; omega)
  | succ n ih =>
    intro a b hsz ha hb
    cases a with
    | obj oa =>
      cases b with
      | obj ob =>
        obtain ⟨hnoda, hwfa⟩ := wf_obj_parts ha
        obtain ⟨hnodb, hwfb⟩ := wf_obj_parts hb
        rw [ddj_obj]
        by_cases hk : sortKeys oa = sortKeys ob
        · have hmemiff := (sortKeys_eq_iff hnoda hnodb).mp hk
          have hloop := objLoop_iff oa ob
            (fun k v w hm hl => by
              have hszv : sizeOf v ≤ n := by
                have := sizeOf_val_lt_obj hm
                omega
              exact ih v w hszv (wfKVs_mem hwfa hm) (wfKVs_mem hwfb (alookup_mem hl)))
            (fun k hm => (hmemiff k).mp hm)
          rw [if_pos hk, hloop]
          simp only [structEq, Bool.and_eq_true, List.all_eq_true, decide_eq_true_eq]
          constructor
          · intro hsh
            exact ⟨⟨fun k hm => (hmemiff k).mp hm, fun k hm => (hmemiff k).mpr hm⟩, hsh⟩
          · intro h
            exact h.2
        · rw [if_neg hk]
          simp only [structEq, Bool.and_eq_true, List.all_eq_true, decide_eq_true_eq]
          constructor
          · intro h; exact absurd h (by simp)
          · rintro ⟨⟨h1, h2⟩, _⟩
            exact absurd ((sortKeys_eq_iff hnoda hnodb).mpr
              (fun k => ⟨fun hm => h1 k hm, fun hm => h2 k hm⟩)) hk
      | null => simp [deep_diff_json, structEq]
      | jbool b => simp [deep_diff_json, structEq]
      | num nn => simp [deep_diff_json, structEq]
      | str s => simp [deep_diff_json, structEq]
      | arr xs => simp [deep_diff_json, structEq]
    | arr xa =>
      cases b with
      | arr xb =>
        have hwfa := wf_arr_parts ha
        have hwfb := wf_arr_parts hb
        by_cases hl : xa.length = xb.length
        · have hloop := arrZip_iff xa xb hl
            (fun p hm => by
              have hx : p.1 ∈ xa := List.of_mem_zip hm |>.1
              have hy : p.2 ∈ xb := List.of_mem_zip hm |>.2
              have hszv : sizeOf p.1 ≤ n := by
                have := sizeOf_elem_lt_arr hx
                omega
              exact ih p.1 p.2 hszv (wfList_mem hwfa hx) (wfList_mem hwfb hy))
          simp only [deep_diff_json, structEq]
          simp [hl]
          exact bool_eq_not_of_iff hloop
        · simp [deep_diff_json, structEq, hl]
      | null => simp [deep_diff_json, structEq]
      | jbool b => simp [deep_diff_json, structEq]
      | num nn => simp [deep_diff_json, structEq]
      | str s => simp [deep_diff_json, structEq]
      | obj ob => simp [deep_diff_json, structEq]
    | null => cases b <;> simp [deep_diff_json, structEq]
    | jbool ba => cases b <;> simp [deep_diff_json, structEq]
    | num na => cases b <;> simp [deep_diff_json, structEq]
    | str sa => cases b <;> simp [deep_diff_json, structEq]

/-- C4: `deep_diff_json` reports two values unchanged (returns `false`) iff
they are structurally equal as the specification defines it: mappings are
equal iff their key sets are identical as sets (independent of insertion
order) with every shared key's values recursively equal; sequences are
equal iff same length and pairwise recursively equal in order; any other
pair is equal iff exactly equal by type and literal value.  In particular
`{"a":1,"b":2}` equals `{"b":2,"a":1}` and `[1,2]` does not equal `[2,1]`. -/
theorem C4_deep_diff_json_iff_structEq :
    (∀ a b : Json, wfJson a = true → wfJson b = true →
      (deep_diff_json a b = false ↔ structEq a b = true))
    ∧ deep_diff_json (.obj [("a", .num 1), ("b", .num 2)])
        (.obj [("b", .num 2), ("a", .num 1)]) = false
    ∧ deep_diff_json (.arr [.num 1, .num 2]) (.arr [.num 2, .num 1]) = true := by
  refine ⟨fun a b ha hb => ddj_iff_structEq_aux (sizeOf a) a b (Nat.le_refl _) ha hb, ?_, ?_⟩
  · decide
  · decide

/-- Witness for C4: the equivalence applied at the concrete pair of
reordered two-key objects, with the well-formedness hypotheses discharged
by computation. -/
theorem C4_deep_diff_json_iff_structEq_witness :
    wfJson (.obj [("a", .num 1), ("b", .num 2)]) = true
    ∧ wfJson (.obj [("b", .num 2), ("a", .num 1)]) = true
    ∧ (deep_diff_json (.obj [("a", .num 1), ("b", .num 2)])
        (.obj [("b", .num 2), ("a", .num 1)]) = false
      ↔ structEq (.obj [("a", .num 1), ("b", .num 2)])
        (.obj [("b", .num 2), ("a", .num 1)]) = true) :=
  ⟨by decide, by decide,
    C4_deep_diff_json_iff_structEq.1 _ _ (by decide) (by decide)⟩

/-- Primary-key field of one parsed record, modelling
`record[primary_key]` followed by the string check: `some s` when the
record is an object whose `primary_key` field holds the string `s`, `none`
when indexing yields null (non-object or missing field) or a non-string
value — the fatal "Primary key is not a string" path. -/
def pkValue (primary_key : String) (record : Json) : Option String :=
  match record with
  | .obj kvs =>
    match alookup primary_key kvs with
    | some (.str s) => some s
    | _ => none
  | _ => none

/-- Map from primary key to full record, modelling
`HashMap<String, serde_json::Value>`. -/
abbrev RecordMap := List (String × Json)

/-- Modelling `HashMap::insert`: replace the existing binding of the key if
present, else add a new binding. -/
def insertRM {β : Type} (m : List (String × β)) (k : String) (v : β) :
    List (String × β) :=
  match m with
  | [] => [(k, v)]
  | (k2, v2) :: rest => if k2 = k then (k, v) :: rest else (k2, v2) :: insertRM rest k v

/-- Modelling `HashMap::remove`: take out the binding of the key, returning
the removed value (if any) and the remaining map. -/
def aremove {β : Type} (k : String) : List (String × β) → Option β × List (String × β)
  | [] => (none, [])
  | (k2, v) :: rest =>
    if k2 = k then (some v, rest)
    else
      let r := aremove k rest
      (r.1, (k2, v) :: r.2)

/-- The record-grouping loop of `get_json_data`: fold the parsed JSON array
into a primary-key-indexed map.  When two entries share a primary key the
later one overwrites the earlier binding; an entry whose primary-key field
is missing or not a string is fatal. -/
def extractRecords (primary_key : String) : List Json → RecordMap → Except String RecordMap
  | [], m => .ok m
  | record :: rest, m =>
    match pkValue primary_key record with
    | some k => extractRecords primary_key rest (insertRM m k record)
    | none => .error "Primary key is not a string"

/-- Tree snapshot of one commit: map from file path to the parsed JSON
array the blob at that path holds (blobs are modelled post-parse). -/
abbrev GitTree := List (String × List Json)

/-- Translation of `get_json_data` from `src/main.rs`: resolve the path in
the tree (a missing entry is the fatal "Failed to get tree entry" path) and
group the parsed array by the primary key. -/
def get_json_data (tree : GitTree) (path : String) (primary_key : String) :
    Except String RecordMap :=
  match alookup path tree with
  | none => .error "Failed to get tree entry"
  | some content => extractRecords primary_key content []

theorem alookup_insertRM {β : Type} (m : List (String × β)) (k k2 : String) (v : β) :
    alookup k (insertRM m k2 v) = if k2 = k then some v else alookup k m := by
  induction m with
  | nil => simp [insertRM, alookup]
  | cons p rest ih =>
    obtain ⟨k3, v3⟩ := p
    by_cases h : k3 = k2
    · subst h
      simp only [insertRM, if_pos rfl]
      by_cases h2 : k3 = k
      · subst h2; simp [alookup]
      · simp [alookup, h2]
    · simp only [insertRM, if_neg h, alookup]
      by_cases h2 : k3 = k
      · subst h2
        rw [if_pos rfl, if_neg (fun hh => h hh.symm), if_pos rfl]
      · rw [if_neg h2, ih]
        by_cases h3 : k2 = k
        · rw [if_pos h3, if_pos h3]
        · rw [if_neg h3, if_neg h3, if_neg h2]

theorem keys_insertRM {β : Type} (m : List (String × β)) (k : String) (v : β) :
    (insertRM m k v).map Prod.fst
      = if k ∈ m.map Prod.fst then m.map Prod.fst else m.map Prod.fst ++ [k] := by
  induction m with
  | nil => simp [insertRM]
  | cons p rest ih =>
    obtain ⟨k2, v2⟩ := p
    by_cases h : k2 = k
    · subst h; simp [insertRM]
    · simp only [insertRM, if_neg h, List.map_cons]
      rw [ih]
      by_cases h2 : k ∈ rest.map Prod.fst
      · simp [h2, Ne.symm h]
      · simp [h2, Ne.symm h]

theorem nodup_keys_insertRM {β : Type} {m : List (String × β)} (k : String) (v : β)
    (h : (m.map Prod.fst).Nodup) : ((insertRM m k v).map Prod.fst).Nodup := by
  rw [keys_insertRM]
  by_cases h2 : k ∈ m.map Prod.fst
  · simpa [h2]
  · simp only [h2, if_false]
    have hd : List.Disjoint (m.map Prod.fst) [k] := by
      intro a ha hb
      simp only [List.mem_singleton] at hb
      subst hb
      exact h2 ha
    exact List.nodup_append.mpr ⟨h, List.nodup_singleton _, hd⟩

theorem getLast?_cons_or {α : Type} (a : α) (l : List α) :
    (a :: l).getLast? = l.getLast?.or (some a) := by
  cases l with
  | nil => rfl
  | cons b bs =>
    rw [List.getLast?_cons_cons]
    have hs : (b :: bs).getLast?.isSome = true := by
      rw [List.getLast?_isSome]
      simp
    obtain ⟨x, hx⟩ := Option.isSome_iff_exists.mp hs
    rw [hx]
    rfl

theorem extractRecords_lookup (primary_key : String) :
    ∀ (content : List Json) (m : RecordMap),
    (∀ r ∈ content, (pkValue primary_key r).isSome = true) →
    ∃ res, extractRecords primary_key content m = .ok res ∧
      ∀ k, alookup k res
        = ((content.filter (fun r => pkValue primary_key r = some k)).getLast?).or
            (alookup k m) := by
  intro content
  induction content with
  | nil =>
    intro m _
    exact ⟨m, rfl, fun k => by simp⟩
  | cons r rest ih =>
    intro m hwf
    obtain ⟨k0, hk0⟩ := Option.isSome_iff_exists.mp (hwf r (by simp))
    obtain ⟨res, hres, hchar⟩ :=
      ih (insertRM m k0 r) (fun r2 hm => hwf r2 (List.mem_cons_of_mem _ hm))
    refine ⟨res, by simp [extractRecords, hk0, hres], fun k => ?_⟩
    rw [hchar k, alookup_insertRM]
    by_cases h : k0 = k
    · subst h
      rw [List.filter_cons_of_pos (by simp [hk0]), if_pos rfl, getLast?_cons_or,
        Option.or_assoc]
      rfl
    · rw [List.filter_cons_of_neg (by simp [hk0, h]), if_neg h]

/-- C6: for every parsed JSON-array input whose entries all carry the
configured primary-key field as a string, record extraction succeeds and
returns a map binding each primary key to the record of the last array
entry carrying that key — when two entries share a primary key, the later
one in array order wins. -/
theorem C6_extract_later_entry_wins (primary_key : String) (content : List Json)
    (hwf : ∀ r ∈ content, (pkValue primary_key r).isSome = true) :
    ∃ m, extractRecords primary_key content [] = .ok m ∧
      ∀ k, alookup k m
        = (content.filter (fun r => pkValue primary_key r = some k)).getLast? := by
  obtain ⟨m, hm, hchar⟩ := extractRecords_lookup primary_key content [] hwf
  exact ⟨m, hm, fun k => by rw [hchar k]; simp [alookup]⟩

/-- Witness for C6: a two-entry array sharing primary key `"x"`; the
returned map binds `"x"` to the second entry. -/
theorem C6_extract_later_entry_wins_witness :
    (∀ r ∈ [Json.obj [("id", Json.str "x"), ("v", Json.num 1)],
            Json.obj [("id", Json.str "x"), ("v", Json.num 2)]],
      (pkValue "id" r).isSome = true)
    ∧ ∃ m, extractRecords "id"
        [Json.obj [("id", Json.str "x"), ("v", Json.num 1)],
         Json.obj [("id", Json.str "x"), ("v", Json.num 2)]] [] = .ok m ∧
      ∀ k, alookup k m
        = ([Json.obj [("id", Json.str "x"), ("v", Json.num 1)],
            Json.obj [("id", Json.str "x"), ("v", Json.num 2)]].filter
              (fun r => pkValue "id" r = some k)).getLast? :=
  ⟨by decide, C6_extract_later_entry_wins "id" _ (by decide)⟩

/-- Commit metadata and snapshot, modelling `git2::Commit`: content id,
commit timestamp (seconds), author identity, parent ids in order (the first
entry is `parent(0)`), and the tree snapshot. -/
structure Commit where
  cid : String
  timestamp : Int
  authorName : String
  authorEmail : String
  parents : List String
  tree : GitTree

/-- Repository: object store plus the current head reference. -/
structure Repo where
  commits : List Commit
  headId : String

/-- Modelling `Repository::find_commit`: resolve an id in the object store. -/
def findCommit (repo : Repo) (id : String) : Option Commit :=
  repo.commits.find? (fun c => c.cid = id)

theorem findCommit_cid {repo : Repo} {id : String} {c : Commit}
    (h : findCommit repo id = some c) : c.cid = id := by
  have := List.find?_some h
  simpa using this

theorem findCommit_mem {repo : Repo} {id : String} {c : Commit}
    (h : findCommit repo id = some c) : c ∈ repo.commits :=
  List.mem_of_find?_eq_some h

/-- Priority-queue pop, modelling libgit2's time-ordered revwalk queue:
select the commit with the strictly greatest timestamp (the earliest-queued
one among ties) and return it with the remaining queue. -/
def pickMax (c : Commit) (l : List Commit) : Commit × List Commit :=
  match l with
  | [] => (c, [])
  | d :: rest =>
    if d.timestamp > c.timestamp then
      let r := pickMax d rest
      (r.1, c :: r.2)
    else
      let r := pickMax c rest
      (r.1, d :: r.2)

theorem pickMax_perm : ∀ (l : List Commit) (c : Commit),
    ((pickMax c l).1 :: (pickMax c l).2).Perm (c :: l) := by
  intro l
  induction l with
  | nil => intro c; simp [pickMax]
  | cons d rest ih =>
    intro c
    by_cases h : d.timestamp > c.timestamp
    · simp only [pickMax, if_pos h]
      exact (List.Perm.swap c (pickMax d rest).1 (pickMax d rest).2).trans ((ih d).cons c)
    · simp only [pickMax, if_neg h]
      exact ((List.Perm.swap d (pickMax c rest).1 (pickMax c rest).2).trans
        ((ih c).cons d)).trans (List.Perm.swap c d rest)

theorem pickMax_fst_mem (c : Commit) (l : List Commit) :
    (pickMax c l).1 ∈ c :: l :=
  (pickMax_perm l c).mem_iff.mp (by simp)

theorem pickMax_snd_subset {c : Commit} {l : List Commit} {x : Commit}
    (h : x ∈ (pickMax c l).2) : x ∈ c :: l :=
  (pickMax_perm l c).mem_iff.mp (by simp [h])

/-- Enqueue the parents of a just-yielded commit, modelling the revwalk's
parent push: a parent already seen is skipped, a resolvable unseen parent
joins the queue and is marked seen (an unresolvable one is just marked). -/
def enqueueParents (repo : Repo) : List String → List Commit → List String →
    List Commit × List String
  | [], frontier, seen => (frontier, seen)
  | p :: rest, frontier, seen =>
    if p ∈ seen then enqueueParents repo rest frontier seen
    else
      match findCommit repo p with
      | some c => enqueueParents repo rest (frontier ++ [c]) (p :: seen)
      | none => enqueueParents repo rest frontier (p :: seen)

/-- Fueled walk loop: pop the max-timestamp commit, yield its id, enqueue
its unseen parents, continue. -/
def walkAux (repo : Repo) : Nat → List Commit → List String → List String
  | 0, _, _ => []
  | _ + 1, [], _ => []
  | fuel + 1, f :: fs, seen =>
    let pick := pickMax f fs
    let enq := enqueueParents repo pick.1.parents pick.2 seen
    pick.1.cid :: walkAux repo fuel enq.1 enq.2

/-- Modelling the `revwalk` of `main`: `push_head` then time-sorted
iteration over every commit reachable from the head. -/
def revwalk (repo : Repo) : List String :=
  match findCommit repo repo.headId with
  | some c => walkAux repo (repo.commits.length + 1) [c] [repo.headId]
  | none => []

/-- Reachability from the head along parent edges (all parents, not only
the first). -/
inductive Reachable (repo : Repo) : String → Prop
  | head : Reachable repo repo.headId
  | parent {i p : String} {c : Commit} : Reachable repo i →
      findCommit repo i = some c → p ∈ c.parents → Reachable repo p

/-- Invariant carried by the walk: every queued commit is the resolution of
its own id and is reachable from the head. -/
def FrontierOk (repo : Repo) (frontier : List Commit) : Prop :=
  ∀ c ∈ frontier, findCommit repo c.cid = some c ∧ Reachable repo c.cid

theorem enqueueParents_fst_mem {repo : Repo} :
    ∀ (ps : List String) (frontier : List Commit) (seen : List String) (c : Commit),
    c ∈ (enqueueParents repo ps frontier seen).1 →
    c ∈ frontier ∨ ∃ p ∈ ps, findCommit repo p = some c := by
  intro ps
  induction ps with
  | nil =>
    intro frontier seen c h
    exact Or.inl h
  | cons p rest ih =>
    intro frontier seen c h
    simp only [enqueueParents] at h
    by_cases hs : p ∈ seen
    · rw [if_pos hs] at h
      rcases ih frontier seen c h with h2 | ⟨q, hq, hf⟩
      · exact Or.inl h2
      · exact Or.inr ⟨q, List.mem_cons_of_mem _ hq, hf⟩
    · rw [if_neg hs] at h
      cases hf : findCommit repo p with
      | some d =>
        rw [hf] at h
        rcases ih (frontier ++ [d]) (p :: seen) c h with h2 | ⟨q, hq, hg⟩
        · rcases List.mem_append.mp h2 with h3 | h3
          · exact Or.inl h3
          · simp only [List.mem_singleton] at h3
            subst h3
            exact Or.inr ⟨p, by simp, hf⟩
        · exact Or.inr ⟨q, List.mem_cons_of_mem _ hq, hg⟩
      | none =>
        rw [hf] at h
        rcases ih frontier (p :: seen) c h with h2 | ⟨q, hq, hg⟩
        · exact Or.inl h2
        · exact Or.inr ⟨q, List.mem_cons_of_mem _ hq, hg⟩

theorem walkAux_sound {repo : Repo} :
    ∀ (fuel : Nat) (frontier : List Commit) (seen : List String),
    FrontierOk repo frontier →
    ∀ i ∈ walkAux repo fuel frontier seen, Reachable repo i := by
  intro fuel
  induction fuel with
  | zero => intro frontier seen _ i hi; simp [walkAux] at hi
  | succ fuel ih =>
    intro frontier seen hok i hi
    cases frontier with
    | nil => simp [walkAux] at hi
    | cons f fs =>
      simp only [walkAux, List.mem_cons] at hi
      have hpickok := hok _ (pickMax_fst_mem f fs)
      rcases hi with hi | hi
      · subst hi
        exact hpickok.2
      · refine ih _ _ ?_ i hi
        intro c hc
        rcases enqueueParents_fst_mem _ _ _ c hc with h2 | ⟨p, hp, hf⟩
        · exact hok c (pickMax_snd_subset h2)
        · have hcid : c.cid = p := findCommit_cid hf
          constructor
          · rw [hcid]; exact hf
          · rw [hcid]
            exact Reachable.parent hpickok.2 hpickok.1 hp

theorem enqueueParents_props {repo : Repo} :
    ∀ (ps : List String) (frontier : List Commit) (seen : List String),
    (∀ c ∈ frontier, c.cid ∈ seen) →
    ((frontier.map (fun c => c.cid)).Nodup) →
    (∀ c ∈ (enqueueParents repo ps frontier seen).1,
        c.cid ∈ (enqueueParents repo ps frontier seen).2)
    ∧ (((enqueueParents repo ps frontier seen).1.map (fun c => c.cid)).Nodup)
    ∧ (∀ x ∈ seen, x ∈ (enqueueParents repo ps frontier seen).2)
    ∧ (∀ c ∈ (enqueueParents repo ps frontier seen).1, c ∈ frontier ∨ c.cid ∉ seen) := by
  intro ps
  induction ps with
  | nil =>
    intro frontier seen h1 h2
    exact ⟨h1, h2, fun x hx => hx, fun c hc => Or.inl hc⟩
  | cons p rest ih =>
    intro frontier seen h1 h2
    simp only [enqueueParents]
    by_cases hs : p ∈ seen
    · rw [if_pos hs]
      exact ih frontier seen h1 h2
    · rw [if_neg hs]
      cases hf : findCommit repo p with
      | some c =>
        have hcid : c.cid = p := findCommit_cid hf
        have hpre1 : ∀ x ∈ frontier ++ [c], x.cid ∈ p :: seen := by
          intro x hx
          rcases List.mem_append.mp hx with hx | hx
          · exact List.mem_cons_of_mem _ (h1 x hx)
          · simp only [List.mem_singleton] at hx
            subst hx
            rw [hcid]
            exact List.mem_cons_self _ _
        have hpre2 : (((frontier ++ [c]).map (fun x => x.cid)).Nodup) := by
          rw [List.map_append]
          refine List.nodup_append.mpr ⟨h2, by simp, ?_⟩
          intro a ha hb
          simp only [List.map_cons, List.map_nil, List.mem_singleton] at hb
          subst hb
          rw [hcid] at ha
          obtain ⟨x, hx, hxe⟩ := List.mem_map.mp ha
          exact hs (hxe ▸ h1 x hx)
        obtain ⟨g1, g2, g3, g4⟩ := ih (frontier ++ [c]) (p :: seen) hpre1 hpre2
        refine ⟨g1, g2, fun x hx => g3 x (List.mem_cons_of_mem _ hx), ?_⟩
        intro d hd
        rcases g4 d hd with hd2 | hd2
        · rcases List.mem_append.mp hd2 with hd3 | hd3
          · exact Or.inl hd3
          · simp only [List.mem_singleton] at hd3
            subst hd3
            rw [hcid]
            exact Or.inr hs
        · exact Or.inr (fun hin => hd2 (List.mem_cons_of_mem _ hin))
      | none =>
        have hpre1 : ∀ x ∈ frontier, x.cid ∈ p :: seen :=
          fun x hx => List.mem_cons_of_mem _ (h1 x hx)
        obtain ⟨g1, g2, g3, g4⟩ := ih frontier (p :: seen) hpre1 h2
        refine ⟨g1, g2, fun x hx => g3 x (List.mem_cons_of_mem _ hx), ?_⟩
        intro d hd
        rcases g4 d hd with hd2 | hd2
        · exact Or.inl hd2
        · exact Or.inr (fun hin => hd2 (List.mem_cons_of_mem _ hin))

theorem walkAux_nodup {repo : Repo} :
    ∀ (fuel : Nat) (frontier : List Commit) (seen : List String),
    (∀ c ∈ frontier, c.cid ∈ seen) →
    ((frontier.map (fun c => c.cid)).Nodup) →
    (walkAux repo fuel frontier seen).Nodup
    ∧ ∀ i ∈ walkAux repo fuel frontier seen,
        i ∈ frontier.map (fun c => c.cid) ∨ i ∉ seen := by
  intro fuel
  induction fuel with
  | zero => intro frontier seen _ _; simp [walkAux]
  | succ fuel ih =>
    intro frontier seen h1 h2
    cases frontier with
    | nil => simp [walkAux]
    | cons f fs =>
      simp only [walkAux]
      have hperm : (((pickMax f fs).1 :: (pickMax f fs).2).map (fun c => c.cid)).Perm
          ((f :: fs).map (fun c => c.cid)) := (pickMax_perm fs f).map _
      have hpnodup : (((pickMax f fs).1 :: (pickMax f fs).2).map (fun c => c.cid)).Nodup :=
        hperm.nodup_iff.mpr h2
      have hhead_notin : (pickMax f fs).1.cid ∉ (pickMax f fs).2.map (fun c => c.cid) := by
        simp only [List.map_cons, List.nodup_cons] at hpnodup
        exact hpnodup.1
      have hsnd_nodup : ((pickMax f fs).2.map (fun c => c.cid)).Nodup := by
        simp only [List.map_cons, List.nodup_cons] at hpnodup
        exact hpnodup.2
      have hsnd_seen : ∀ c ∈ (pickMax f fs).2, c.cid ∈ seen :=
        fun c hc => h1 c (pickMax_snd_subset hc)
      obtain ⟨e1, e2, e3, e4⟩ :=
        enqueueParents_props (pickMax f fs).1.parents (pickMax f fs).2 seen hsnd_seen hsnd_nodup
      obtain ⟨tnodup, tmem⟩ := ih _ _ e1 e2
      have hheadseen : (pickMax f fs).1.cid ∈ seen := h1 _ (pickMax_fst_mem f fs)
      constructor
      · rw [List.nodup_cons]
        refine ⟨?_, tnodup⟩
        intro hin
        rcases tmem _ hin with hin2 | hin2
        · obtain ⟨c, hc, hce⟩ := List.mem_map.mp hin2
          rcases e4 c hc with hc2 | hc2
          · exact hhead_notin (by rw [← hce]; exact List.mem_map.mpr ⟨c, hc2, rfl⟩)
          · exact hc2 (hce ▸ hheadseen)
        · exact hin2 (e3 _ hheadseen)
      · intro i hi
        rcases List.mem_cons.mp hi with hi | hi
        · subst hi
          exact Or.inl (hperm.mem_iff.mp (by simp))
        · rcases tmem i hi with hi2 | hi2
          · obtain ⟨c, hc, hce⟩ := List.mem_map.mp hi2
            rcases e4 c hc with hc2 | hc2
            · refine Or.inl ?_
              have : c ∈ f :: fs := pickMax_snd_subset hc2
              exact List.mem_map.mpr ⟨c, this, hce⟩
            · exact Or.inr (fun hin => hc2 (hce ▸ hin))
          · exact Or.inr (fun hin => hi2 (e3 _ hin))

theorem revwalk_nodup (repo : Repo) : (revwalk repo).Nodup := by
  unfold revwalk
  cases hf : findCommit repo repo.headId with
  | none => simp
  | some c =>
    refine (walkAux_nodup _ [c] [repo.headId] ?_ (by simp)).1
    intro d hd
    simp only [List.mem_singleton] at hd
    subst hd
    simp [findCommit_cid hf]

theorem walkAux_resolvable {repo : Repo} :
    ∀ (fuel : Nat) (frontier : List Commit) (seen : List String),
    (∀ c ∈ frontier, findCommit repo c.cid = some c) →
    ∀ i ∈ walkAux repo fuel frontier seen, ∃ c, findCommit repo i = some c := by
  intro fuel
  induction fuel with
  | zero => intro frontier seen _ i hi; simp [walkAux] at hi
  | succ fuel ih =>
    intro frontier seen hok i hi
    cases frontier with
    | nil => simp [walkAux] at hi
    | cons f fs =>
      simp only [walkAux, List.mem_cons] at hi
      rcases hi with hi | hi
      · subst hi
        exact ⟨_, hok _ (pickMax_fst_mem f fs)⟩
      · refine ih _ _ ?_ i hi
        intro c hc
        rcases enqueueParents_fst_mem _ _ _ c hc with h2 | ⟨p, hp, hf⟩
        · exact hok c (pickMax_snd_subset h2)
        · rw [findCommit_cid hf]
          exact hf

theorem revwalk_sound (repo : Repo) : ∀ i ∈ revwalk repo, Reachable repo i := by
  unfold revwalk
  cases hf : findCommit repo repo.headId with
  | none => simp
  | some c =>
    refine walkAux_sound _ [c] [repo.headId] ?_
    intro d hd
    simp only [List.mem_singleton] at hd
    subst hd
    rw [findCommit_cid hf]
    exact ⟨hf, Reachable.head⟩

theorem revwalk_resolvable (repo : Repo) :
    ∀ i ∈ revwalk repo, ∃ c, findCommit repo i = some c := by
  unfold revwalk
  cases hf : findCommit repo repo.headId with
  | none => simp
  | some c =>
    refine walkAux_resolvable _ [c] [repo.headId] ?_
    intro d hd
    simp only [List.mem_singleton] at hd
    subst hd
    rw [findCommit_cid hf]
    exact hf

/-- First-parent chain from a commit id: the commit sequence obtained by
always following a commit's first listed parent, ignoring merge siblings.
Written from the specification's walker contract (spec sections 4.1 and the
glossary), to be compared with the source walk `revwalk`. -/
def firstParentChain (repo : Repo) : Nat → String → List String
  | 0, _ => []
  | fuel + 1, i =>
    i :: (match findCommit repo i with
      | some c =>
        match c.parents.head? with
        | some p => firstParentChain repo fuel p
        | none => []
      | none => [])

/-- First-parent chain starting at the head. -/
def firstParentChainFromHead (repo : Repo) : List String :=
  firstParentChain repo (repo.commits.length + 1) repo.headId

/-- Four-commit repository with one merge: root `R`; branches `A` and `B`
both child of `R`; merge head `M` with first parent `A` and second parent
`B`.  Timestamps increase toward the head. -/
def exMergeRepo : Repo :=
  { commits :=
      [ { cid := "R", timestamp := 0, authorName := "dev", authorEmail := "dev@example.com",
          parents := [], tree := [] },
        { cid := "A", timestamp := 1, authorName := "dev", authorEmail := "dev@example.com",
          parents := ["R"], tree := [] },
        { cid := "B", timestamp := 2, authorName := "dev", authorEmail := "dev@example.com",
          parents := ["R"], tree := [] },
        { cid := "M", timestamp := 3, authorName := "dev", authorEmail := "dev@example.com",
          parents := ["A", "B"], tree := [] } ],
    headId := "M" }

/-- C2 counterexample: on `exMergeRepo` the walk visits `B`, a commit
reachable only through the second parent of the merge `M`, and the commit
visited immediately after the head is `B`, not the head's first parent
`A` — the walk is not the first-parent chain. -/
theorem C2_walk_counterexample :
    revwalk exMergeRepo = ["M", "B", "A", "R"]
    ∧ firstParentChainFromHead exMergeRepo = ["M", "A", "R"]
    ∧ "B" ∈ revwalk exMergeRepo
    ∧ "B" ∉ firstParentChainFromHead exMergeRepo :=
  ⟨by decide, by decide, by decide, by decide⟩

/-- C2 (amended): the walk is not restricted to the first-parent chain.
Every commit it visits is reachable from the current head along parent
edges — any parent, merge siblings included — and commits reachable only
through second or later parents can be visited (and hence diffed against
their own first parent), as the counterexample shows. -/
theorem C2_walk_visits_reachable (repo : Repo) :
    ∀ i ∈ revwalk repo, Reachable repo i :=
  revwalk_sound repo

/-- Witness for C2 (amended): the merge sibling `B` is visited on
`exMergeRepo` and the theorem yields its reachability. -/
theorem C2_walk_visits_reachable_witness :
    "B" ∈ revwalk exMergeRepo ∧ Reachable exMergeRepo "B" :=
  ⟨by decide, C2_walk_visits_reachable exMergeRepo "B" (by decide)⟩

theorem jsonKVBeq_refl_of : ∀ (kvs : List (String × Json)),
    (∀ k v, (k, v) ∈ kvs → jsonBeq v v = true) → jsonKVBeq kvs kvs = true := by
  intro kvs
  induction kvs with
  | nil => intro _; rfl
  | cons p rest ih =>
    obtain ⟨k, v⟩ := p
    intro h
    simp only [jsonKVBeq, Bool.and_eq_true, decide_eq_true_eq]
    exact ⟨⟨by simp, h k v (by simp)⟩, ih (fun k2 v2 hm => h k2 v2 (List.mem_cons_of_mem _ hm))⟩

theorem jsonListBeq_refl_of : ∀ (xs : List Json),
    (∀ v ∈ xs, jsonBeq v v = true) → jsonListBeq xs xs = true := by
  intro xs
  induction xs with
  | nil => intro _; rfl
  | cons x rest ih =>
    intro h
    simp only [jsonListBeq, Bool.and_eq_true]
    exact ⟨h x (by simp), ih (fun v hm => h v (List.mem_cons_of_mem _ hm))⟩

theorem jsonBeq_refl_aux : ∀ (n : Nat) (a : Json), sizeOf a ≤ n → jsonBeq a a = true := by
  intro n
  induction n with
  | zero =>
    intro a hsz
    exact absurd hsz (by have := json_sizeOf_pos a; omega)
  | succ n ih =>
    intro a hsz
    cases a with
    | null => rfl
    | jbool b => simp [jsonBeq]
    | num m => simp [jsonBeq]
    | str s => simp [jsonBeq]
    | arr xs =>
      simp only [jsonBeq]
      exact jsonListBeq_refl_of xs (fun v hm => ih v (by
        have := sizeOf_elem_lt_arr hm
        omega))
    | obj kvs =>
      simp only [jsonBeq]
      exact jsonKVBeq_refl_of kvs (fun k v hm => ih v (by
        have := sizeOf_val_lt_obj hm
        omega))

theorem jsonKVBeq_eq_of : ∀ (as1 bs : List (String × Json)),
    (∀ k v w, (k, v) ∈ as1 → jsonBeq v w = true → v = w) →
    jsonKVBeq as1 bs = true → as1 = bs := by
  intro as1
  induction as1 with
  | nil =>
    intro bs _ h
    cases bs with
    | nil => rfl
    | cons q rest => simp [jsonKVBeq] at h
  | cons p rest ih =>
    intro bs hpt h
    obtain ⟨k, v⟩ := p
    cases bs with
    | nil => simp [jsonKVBeq] at h
    | cons q rest2 =>
      obtain ⟨k2, v2⟩ := q
      simp only [jsonKVBeq, Bool.and_eq_true, decide_eq_true_eq] at h
      obtain ⟨⟨hk, hv⟩, htl⟩ := h
      have h1 : v = v2 := hpt k v v2 (by simp) hv
      have h2 : rest = rest2 :=
        ih rest2 (fun k3 v3 w3 hm hb => hpt k3 v3 w3 (List.mem_cons_of_mem _ hm) hb) htl
      rw [hk, h1, h2]

theorem jsonListBeq_eq_of : ∀ (as1 bs : List Json),
    (∀ v w, v ∈ as1 → jsonBeq v w = true → v = w) →
    jsonListBeq as1 bs = true → as1 = bs := by
  intro as1
  induction as1 with
  | nil =>
    intro bs _ h
    cases bs with
    | nil => rfl
    | cons q rest => simp [jsonListBeq] at h
  | cons x rest ih =>
    intro bs hpt h
    cases bs with
    | nil => simp [jsonListBeq] at h
    | cons y rest2 =>
      simp only [jsonListBeq, Bool.and_eq_true] at h
      have h1 : x = y := hpt x y (by simp) h.1
      have h2 : rest = rest2 :=
        ih rest2 (fun v w hm hb => hpt v w (List.mem_cons_of_mem _ hm) hb) h.2
      rw [h1, h2]

theorem jsonBeq_eq_aux : ∀ (n : Nat) (a b : Json), sizeOf a ≤ n →
    jsonBeq a b = true → a = b := by
  intro n
  induction n with
  | zero =>
    intro a _ hsz
    exact absurd hsz (by have := json_sizeOf_pos a; omega)
  | succ n ih =>
    intro a b hsz h
    cases a with
    | null => cases b <;> simp [jsonBeq] at h ⊢
    | jbool x => cases b <;> simp [jsonBeq] at h ⊢; exact h
    | num x => cases b <;> simp [jsonBeq] at h ⊢; exact h
    | str x => cases b <;> simp [jsonBeq] at h ⊢; exact h
    | arr xs =>
      cases b <;> simp [jsonBeq] at h ⊢
      rename_i ys
      exact jsonListBeq_eq_of xs ys
        (fun v w hm hb => ih v w (by have := sizeOf_elem_lt_arr hm; omega) hb) h
    | obj kvs =>
      cases b <;> simp [jsonBeq] at h ⊢
      rename_i kvs2
      exact jsonKVBeq_eq_of kvs kvs2
        (fun k v w hm hb => ih v w (by have := sizeOf_val_lt_obj hm; omega) hb) h

instance : DecidableEq Json := fun a b =>
  if h : jsonBeq a b = true then
    isTrue (jsonBeq_eq_aux (sizeOf a) a b (Nat.le_refl _) h)
  else
    isFalse (fun he => h (he ▸ jsonBeq_refl_aux (sizeOf a) a (Nat.le_refl _)))

/-- Immutable (commit id, timestamp) event marker, modelling `ChangeInstant`. -/
structure ChangeInstant where
  commit : String
  timestamp : Int
deriving DecidableEq

/-- Per (path, primary key) aggregate of event sequences, modelling
`ChangeRecord`; the three lists hold events in internal append order. -/
structure ChangeRecord where
  added : List ChangeInstant
  removed : List ChangeInstant
  modified : List ChangeInstant
deriving DecidableEq

/-- Event kind, modelling the `ChangeType` enum. -/
inductive ChangeType where
  | added
  | removed
  | modified
deriving DecidableEq

/-- Timeline of one path: map from primary key to its `ChangeRecord`. -/
abbrev PathRecords := List (String × ChangeRecord)

/-- All accumulated timelines: map from path to its `PathRecords`. -/
abbrev AllRecords := List (String × PathRecords)

/-- The lookahead cache: map from path to a previously extracted record map. -/
abbrev CacheMap := List (String × RecordMap)

/-- The `or_insert` default of `update_change_record_entry`. -/
def emptyChangeRecord : ChangeRecord := ⟨[], [], []⟩

/-- Append one instant to the matching event list (`Vec::push`). -/
def pushInstant (r : ChangeRecord) (ci : ChangeInstant) : ChangeType → ChangeRecord
  | .added => { r with added := r.added ++ [ci] }
  | .removed => { r with removed := r.removed ++ [ci] }
  | .modified => { r with modified := r.modified ++ [ci] }

/-- Translation of `update_change_record_entry` from `src/main.rs`: fetch or
create the key's `ChangeRecord` and push the instant onto the list selected
by the change type. -/
def update_change_record_entry (m : PathRecords) (primary_key : String)
    (ci : ChangeInstant) (t : ChangeType) : PathRecords :=
  match m with
  | [] => [(primary_key, pushInstant emptyChangeRecord ci t)]
  | (k, r) :: rest =>
    if k = primary_key then (k, pushInstant r ci t) :: rest
    else (k, r) :: update_change_record_entry rest primary_key ci t

/-- Delta status, modelling the three `git2::Delta` values the program
handles (any other status is the fatal `Unknown delta type` path, which
`diff_tree_to_tree` with default options never produces). -/
inductive DeltaStatus where
  | added
  | deleted
  | modified
deriving DecidableEq

/-- One changed path between two trees, modelling `git2::DiffDelta`. -/
structure Delta where
  oldPath : String
  newPath : String
  status : DeltaStatus
deriving DecidableEq

/-- Modelling `diff_tree_to_tree` with default options: one delta per path
whose blob content differs between the two trees, in sorted path order;
without rename detection the old and new paths of every produced delta
coincide. -/
def diffTrees (oldT newT : GitTree) : List Delta :=
  let paths :=
    List.insertionSort strLeP ((oldT.map Prod.fst) ++ (newT.map Prod.fst)).dedup
  paths.filterMap (fun p =>
    match alookup p oldT, alookup p newT with
    | some o, some n => if jsonListBeq o n then none else some ⟨p, p, .modified⟩
    | some _, none => some ⟨p, p, .deleted⟩
    | none, some _ => some ⟨p, p, .added⟩
    | none, none => none)

/-- Command-line arguments consumed by the core (the glob include pattern
is externalized to the opaque predicate `includeMatch`, as the
specification prescribes). -/
structure RunArgs where
  primary_key : String
  includeMatch : String → Bool
  include_authors : List String
  ignore_revs : List String
  untilRev : Option String

/-- Reorder oracle for `HashMap` iteration: Rust fixes no iteration order,
so every loop over a hash map iterates the oracle's rearrangement of the
canonical association list. -/
abbrev MapOrder := RecordMap → RecordMap

/-- Reorder oracle for `HashSet` iteration (the `unseen_new_pks` loop). -/
abbrev SetOrder := List String → List String

/-- Per-key events of one `Delta::Modified` step, in emission order: first
the loop over the old-side map (a key missing from the new side emits
Removed, a shared key with structurally differing values emits Modified,
an unchanged key emits nothing, and every old key is dropped from the
unseen set), then one Added per remaining unseen new-side key. -/
def modifiedEvents (old_content new_content : RecordMap) (σ : MapOrder) (τ : SetOrder) :
    List (String × ChangeType) :=
  let oldEvents := (σ old_content).filterMap (fun kv =>
    match alookup kv.1 new_content with
    | some new_val =>
      if deep_diff_json kv.2 new_val then some (kv.1, ChangeType.modified) else none
    | none => some (kv.1, ChangeType.removed))
  let unseen_new_pks :=
    (new_content.map Prod.fst).filter (fun k => (alookup k old_content).isNone)
  oldEvents ++ (τ unseen_new_pks).map (fun k => (k, ChangeType.added))

/-- Fold a list of per-key events into a path's timeline through
`update_change_record_entry`, sharing one `ChangeInstant`. -/
def applyEvents (m : PathRecords) (ci : ChangeInstant)
    (evs : List (String × ChangeType)) : PathRecords :=
  evs.foldl (fun acc e => update_change_record_entry acc e.1 ci e.2) m

/-- Modelling `change_records.entry(path).or_insert(HashMap::new())`: make
sure the path has a (possibly empty) timeline. -/
def entryInit (recs : AllRecords) (path : String) : AllRecords :=
  if (alookup path recs).isSome then recs else recs ++ [(path, [])]

/-- State threaded through one commit's delta loop: the accumulated
timelines, the (read) lookahead cache, and the next cache being built. -/
structure DeltaState where
  change_records : AllRecords
  cached_data : CacheMap
  next_cached : CacheMap
deriving DecidableEq

/-- Translation of the `for delta in changed_files` body of `main`: fatal
path-identity check first, then the include filter, then per-status record
extraction and event classification.  The Added and Modified branches take
the new-side map out of the cache when present (`HashMap::remove`), else
extract it from the commit tree; the Deleted branch extracts the old side
from the parent tree and offers it to the next step's cache. -/
def processDelta (args : RunArgs) (σ : MapOrder) (τ : SetOrder)
    (parent_tree commit_tree : GitTree) (commit_id : String) (commit_time : Int)
    (st : DeltaState) (d : Delta) : Except String DeltaState :=
  if d.oldPath ≠ d.newPath then
    .error "Old path does not match new path"
  else if ¬ args.includeMatch d.oldPath then
    .ok st
  else
    let change_instant : ChangeInstant := ⟨commit_id, commit_time⟩
    let recs0 := entryInit st.change_records d.newPath
    let entry0 := (alookup d.newPath recs0).getD []
    match d.status with
    | .added =>
      let rem := aremove d.newPath st.cached_data
      (match rem.1 with
       | some m => Except.ok m
       | none => get_json_data commit_tree d.newPath args.primary_key).bind
        fun (new_content : RecordMap) =>
          let evs := (σ new_content).map (fun (kv : String × Json) => (kv.1, ChangeType.added))
          .ok { change_records := insertRM recs0 d.newPath (applyEvents entry0 change_instant evs),
                cached_data := rem.2,
                next_cached := st.next_cached }
    | .deleted =>
      (get_json_data parent_tree d.oldPath args.primary_key).bind
        fun (old_content : RecordMap) =>
          let evs := (σ old_content).map (fun (kv : String × Json) => (kv.1, ChangeType.removed))
          .ok { change_records := insertRM recs0 d.newPath (applyEvents entry0 change_instant evs),
                cached_data := st.cached_data,
                next_cached := insertRM st.next_cached d.oldPath old_content }
    | .modified =>
      let rem := aremove d.newPath st.cached_data
      (match rem.1 with
       | some m => Except.ok m
       | none => get_json_data commit_tree d.newPath args.primary_key).bind
        fun (new_content : RecordMap) =>
          (get_json_data parent_tree d.oldPath args.primary_key).bind
            fun (old_content : RecordMap) =>
              let evs := modifiedEvents old_content new_content σ τ
              .ok { change_records :=
                      insertRM recs0 d.newPath (applyEvents entry0 change_instant evs),
                    cached_data := rem.2,
                    next_cached := st.next_cached }

/-- State of the walk loop between commits. -/
structure LoopState where
  change_records : AllRecords
  cached_data : CacheMap
  prev_oid : String
deriving DecidableEq

/-- Outcome of one loop iteration: `continue`, `break`, or a fatal abort. -/
inductive StepRes where
  | cont (s : LoopState)
  | brk (s : LoopState)
  | fail (msg : String)
deriving DecidableEq

/-- `git2::Oid::zero()`, the initial `prev_oid` and the until sentinel when
no `--until` is given. -/
def zeroOid : String := "0000000000000000000000000000000000000000"

/-- Translation of the body of `for oid in revwalk` from `src/main.rs`:
clear the cache when the id differs from the previously processed one;
skip ignored revisions (`continue`); stop at the until boundary (`break`);
resolve the commit; skip commits by foreign authors when author filters
are set; stop at a commit whose first parent cannot be obtained (root);
otherwise diff the parent tree against the commit tree and fold every
delta, then install the freshly built cache and remember the id. -/
def processOid (args : RunArgs) (σ : MapOrder) (τ : SetOrder) (repo : Repo)
    (until_commit : String) (s : LoopState) (oid : String) : StepRes :=
  let cached0 := if oid ≠ s.prev_oid then [] else s.cached_data
  if oid ∈ args.ignore_revs then
    .cont { s with cached_data := cached0 }
  else if oid = until_commit then
    .brk { s with cached_data := cached0 }
  else
    match findCommit repo oid with
    | none => .fail "Failed to find commit"
    | some commit =>
      if args.include_authors ≠ []
          ∧ commit.authorName ∉ args.include_authors
          ∧ commit.authorEmail ∉ args.include_authors then
        .cont { s with cached_data := cached0 }
      else
        match commit.parents.head? with
        | none => .brk { s with cached_data := cached0 }
        | some pid =>
          match findCommit repo pid with
          | none => .brk { s with cached_data := cached0 }
          | some parent_commit =>
            match (diffTrees parent_commit.tree commit.tree).foldlM
                (processDelta args σ τ parent_commit.tree commit.tree
                  commit.cid commit.timestamp)
                ⟨s.change_records, cached0, []⟩ with
            | .error m => .fail m
            | .ok ds => .cont ⟨ds.change_records, ds.next_cached, oid⟩

/-- The walk loop over the revwalk's id stream. -/
def runWalk (args : RunArgs) (σ : MapOrder) (τ : SetOrder) (repo : Repo)
    (until_commit : String) : List String → LoopState → Except String LoopState
  | [], s => .ok s
  | oid :: rest, s =>
    match processOid args σ τ repo until_commit s oid with
    | .cont s2 => runWalk args σ τ repo until_commit rest s2
    | .brk s2 => .ok s2
    | .fail m => .error m

/-- Translation of `main` up to (and excluding) the output loop: resolve
the optional until revision (fatal if unresolvable), then run the walk
over the revwalk stream starting from the empty state. -/
def runMain (args : RunArgs) (σ : MapOrder) (τ : SetOrder) (repo : Repo) :
    Except String AllRecords :=
  match (match args.untilRev with
         | some u =>
           match findCommit repo u with
           | some c => Except.ok c.cid
           | none => Except.error "Failed to find until commit"
         | none => Except.ok zeroOid) with
  | .error m => .error m
  | .ok until_commit =>
    match runWalk args σ τ repo until_commit (revwalk repo) ⟨[], [], zeroOid⟩ with
    | .ok s => .ok s.change_records
    | .error m => .error m

/-- Translation of `serialize_change_instants`: the serializer clones the
event list and reverses it before emission. -/
def serialize_change_instants (instants : List ChangeInstant) : List ChangeInstant :=
  instants.reverse

/-- Serialized form of one `ChangeRecord`. -/
structure EmittedRecord where
  added : List ChangeInstant
  removed : List ChangeInstant
  modified : List ChangeInstant
deriving DecidableEq

/-- Serialize one `ChangeRecord`: each event list is emitted reversed. -/
def emitRecord (r : ChangeRecord) : EmittedRecord :=
  ⟨serialize_change_instants r.added, serialize_change_instants r.removed,
    serialize_change_instants r.modified⟩

/-- Key order used by the output loop (`sorted_by_key(|v| v.0)`). -/
def pathRecLe (a b : String × ChangeRecord) : Prop := strLeP a.1 b.1

instance : DecidableRel pathRecLe := fun a b => instDecidableEqBool (strLe a.1 b.1) true

instance : IsTotal (String × ChangeRecord) pathRecLe :=
  ⟨fun a b => strLeChars_total a.1.data b.1.data⟩

instance : IsTrans (String × ChangeRecord) pathRecLe :=
  ⟨fun a b c => strLeChars_trans a.1.data b.1.data c.1.data⟩

/-- Serialization of one path's finished timeline, modelling the output
loop of `main`: sort the key/record pairs by key, then serialize each
record (collecting into a `BTreeMap` and writing it emits in exactly this
sorted key order). -/
def emitPath (m : PathRecords) : List (String × EmittedRecord) :=
  (List.insertionSort pathRecLe m).map (fun kv => (kv.1, emitRecord kv.2))

/-- Content of the output file written for one path (`none` when the walk
never created a timeline for the path, so no file is written). -/
def emitOutput (recs : AllRecords) (path : String) : Option (List (String × EmittedRecord)) :=
  (alookup path recs).map emitPath

/-- Default-argument run configuration for the concrete scenarios: primary
key `id`, include pattern matching every path, no author filter, no
ignored revisions, no until boundary. -/
def exArgs : RunArgs :=
  { primary_key := "id", includeMatch := fun _ => true, include_authors := [],
    ignore_revs := [], untilRev := none }

/-- The lifecycle scenario repository of the specification: `data.json`
holds `[{"id":"x","v":1}]` at root `C1`, `[{"id":"x","v":2},{"id":"y","v":1}]`
at `C2`, and `[{"id":"y","v":1}]` at head `C3`. -/
def exLifecycleRepo : Repo :=
  { commits :=
      [ { cid := "C1", timestamp := 1, authorName := "dev",
          authorEmail := "dev@example.com", parents := [],
          tree := [("data.json", [Json.obj [("id", Json.str "x"), ("v", Json.num 1)]])] },
        { cid := "C2", timestamp := 2, authorName := "dev",
          authorEmail := "dev@example.com", parents := ["C1"],
          tree := [("data.json",
            [Json.obj [("id", Json.str "x"), ("v", Json.num 2)],
             Json.obj [("id", Json.str "y"), ("v", Json.num 1)]])] },
        { cid := "C3", timestamp := 3, authorName := "dev",
          authorEmail := "dev@example.com", parents := ["C2"],
          tree := [("data.json", [Json.obj [("id", Json.str "y"), ("v", Json.num 1)]])] } ],
    headId := "C3" }

/-- The timelines the program actually accumulates on the lifecycle
scenario repository. -/
def exLifecycleRecords : AllRecords :=
  [("data.json",
    [("x", ⟨[], [⟨"C3", 3⟩], [⟨"C2", 2⟩]⟩),
     ("y", ⟨[⟨"C2", 2⟩], [], []⟩)])]

/-- C1 counterexample: on the specification's own lifecycle scenario the
emitted timeline for `data.json` gives key `x` an empty `added` list — not
one added instant at the root commit `C1` as claimed — because the walk
breaks at the parentless root commit before diffing it. -/
theorem C1_lifecycle_counterexample :
    runMain exArgs id id exLifecycleRepo = .ok exLifecycleRecords
    ∧ emitOutput exLifecycleRecords "data.json"
        = some [("x", ⟨[], [⟨"C3", 3⟩], [⟨"C2", 2⟩]⟩),
                ("y", ⟨[⟨"C2", 2⟩], [], []⟩)]
    ∧ ((alookup "x" [("x", (⟨[], [⟨"C3", 3⟩], [⟨"C2", 2⟩]⟩ : EmittedRecord)),
          ("y", ⟨[⟨"C2", 2⟩], [], []⟩)]).map EmittedRecord.added)
        ≠ some [⟨"C1", 1⟩] :=
  ⟨by rfl, by rfl, by decide⟩

/-- C1 (amended): on the lifecycle scenario repository the emitted timeline
for `data.json` maps key `x` to exactly one modified instant at `C2` and
one removed instant at `C3` — and no added instant, since the walk stops at
the parentless root `C1` without diffing it — and maps key `y` to exactly
one added instant at `C2`. -/
theorem C1_lifecycle_amended :
    runMain exArgs id id exLifecycleRepo = .ok exLifecycleRecords
    ∧ emitOutput exLifecycleRecords "data.json"
        = some [("x", ⟨[], [⟨"C3", 3⟩], [⟨"C2", 2⟩]⟩),
                ("y", ⟨[⟨"C2", 2⟩], [], []⟩)] :=
  ⟨by rfl, by rfl⟩

/-- Arguments with an until boundary `U` that is also listed in the
ignore-revision set. -/
def exUntilArgs : RunArgs :=
  { primary_key := "id", includeMatch := fun _ => true, include_authors := [],
    ignore_revs := ["U"], untilRev := some "U" }

/-- Linear four-commit repository `R ← A ← U ← H` where `d.json` changes at
`A` and at `H` (and is unchanged at `U`). -/
def exUntilRepo : Repo :=
  { commits :=
      [ { cid := "R", timestamp := 0, authorName := "dev",
          authorEmail := "dev@example.com", parents := [],
          tree := [("d.json", [Json.obj [("id", Json.str "k"), ("v", Json.num 0)]])] },
        { cid := "A", timestamp := 1, authorName := "dev",
          authorEmail := "dev@example.com", parents := ["R"],
          tree := [("d.json", [Json.obj [("id", Json.str "k"), ("v", Json.num 1)]])] },
        { cid := "U", timestamp := 2, authorName := "dev",
          authorEmail := "dev@example.com", parents := ["A"],
          tree := [("d.json", [Json.obj [("id", Json.str "k"), ("v", Json.num 1)]])] },
        { cid := "H", timestamp := 3, authorName := "dev",
          authorEmail := "dev@example.com", parents := ["U"],
          tree := [("d.json", [Json.obj [("id", Json.str "k"), ("v", Json.num 2)]])] } ],
    headId := "H" }

/-- C9: when the commit configured as the until boundary is also in the
ignore-revision set, the loop body takes the ignore `continue` before the
until `break` ever runs — for every state and every until value, an
ignored id yields a `continue` outcome, never a stop — and on the concrete
repository the walk then proceeds past the ignored until commit `U` and
still diffs the older commit `A` (the modified instant at `A` is emitted). -/
theorem C9_ignore_beats_until :
    (∀ (args : RunArgs) (σ : MapOrder) (τ : SetOrder) (repo : Repo)
        (until_commit : String) (s : LoopState) (oid : String),
        oid ∈ args.ignore_revs →
        processOid args σ τ repo until_commit s oid
          = .cont { s with cached_data := if oid ≠ s.prev_oid then [] else s.cached_data })
    ∧ runMain exUntilArgs id id exUntilRepo
        = .ok [("d.json", [("k", ⟨[], [], [⟨"H", 3⟩, ⟨"A", 1⟩]⟩)])] := by
  constructor
  · intro args σ τ repo until_commit s oid h
    simp [processOid, h]
  · rfl

/-- Witness for C9: the ignored until commit `U` of the concrete run takes
the `continue` branch. -/
theorem C9_ignore_beats_until_witness :
    "U" ∈ exUntilArgs.ignore_revs
    ∧ processOid exUntilArgs id id exUntilRepo "U"
        ⟨[], [], zeroOid⟩ "U"
        = .cont { change_records := [], cached_data := [], prev_oid := zeroOid } := by
  refine ⟨by decide, ?_⟩
  have h := C9_ignore_beats_until.1 exUntilArgs id id exUntilRepo "U"
    ⟨[], [], zeroOid⟩ "U" (by decide)
  rw [h]
  rfl

/-- C10: the fatal abort on a delta whose old and new paths differ is
evaluated before the include-pattern filter: for every argument vector —
in particular one whose include predicate matches neither path — a
mismatched delta aborts delta processing with the path-mismatch panic, and
any delta list containing a mismatched delta makes the whole per-commit
fold abort. -/
theorem C10_path_mismatch_before_include :
    (∀ (args : RunArgs) (σ : MapOrder) (τ : SetOrder) (pt ct : GitTree)
        (cid : String) (t : Int) (st : DeltaState) (d : Delta),
        d.oldPath ≠ d.newPath →
        processDelta args σ τ pt ct cid t st d
          = .error "Old path does not match new path")
    ∧ (∀ (args : RunArgs) (σ : MapOrder) (τ : SetOrder) (pt ct : GitTree)
        (cid : String) (t : Int) (st : DeltaState) (deltas : List Delta),
        (∃ d ∈ deltas, d.oldPath ≠ d.newPath) →
        ∃ msg, deltas.foldlM (processDelta args σ τ pt ct cid t) st
          = .error msg) := by
  constructor
  · intro args σ τ pt ct cid t st d h
    simp [processDelta, h]
  · intro args σ τ pt ct cid t st deltas
    induction deltas generalizing st with
    | nil =>
      rintro ⟨d, hd, _⟩
      simp at hd
    | cons d0 rest ih =>
      rintro ⟨d, hd, hne⟩
      by_cases h0 : d0.oldPath ≠ d0.newPath
      · refine ⟨"Old path does not match new path", ?_⟩
        rw [List.foldlM_cons]
        have he : processDelta args σ τ pt ct cid t st d0
            = .error "Old path does not match new path" := by
          simp [processDelta, h0]
        rw [he]
        rfl
      · rcases List.mem_cons.mp hd with hd2 | hd2
        · subst hd2
          exact absurd hne h0
        · rw [List.foldlM_cons]
          cases hp : processDelta args σ τ pt ct cid t st d0 with
          | error m => exact ⟨m, rfl⟩
          | ok st2 =>
            obtain ⟨msg, hmsg⟩ := ih st2 ⟨d, hd2, hne⟩
            exact ⟨msg, by simpa using hmsg⟩

/-- Witness for C10: a single mismatched delta under an include predicate
that matches nothing still aborts with the path-mismatch panic. -/
theorem C10_path_mismatch_before_include_witness :
    (Delta.mk "a.json" "b.json" .modified).oldPath
      ≠ (Delta.mk "a.json" "b.json" .modified).newPath
    ∧ processDelta
        { primary_key := "id", includeMatch := fun _ => false,
          include_authors := [], ignore_revs := [], untilRev := none }
        id id [] [] "C" 0 ⟨[], [], []⟩ (Delta.mk "a.json" "b.json" .modified)
        = .error "Old path does not match new path" :=
  ⟨by decide,
    C10_path_mismatch_before_include.1 _ id id [] [] "C" 0 ⟨[], [], []⟩
      (Delta.mk "a.json" "b.json" .modified) (by decide)⟩

/-- The delta-processing body with the lookahead cache removed entirely:
the new-side record map of the Added and Modified branches is always
extracted fresh from the commit tree, and the Deleted branch stores
nothing.  Comparison program for the cache no-op claim. -/
def processDeltaNoCache (args : RunArgs) (σ : MapOrder) (τ : SetOrder)
    (parent_tree commit_tree : GitTree) (commit_id : String) (commit_time : Int)
    (recs : AllRecords) (d : Delta) : Except String AllRecords :=
  if d.oldPath ≠ d.newPath then
    .error "Old path does not match new path"
  else if ¬ args.includeMatch d.oldPath then
    .ok recs
  else
    let change_instant : ChangeInstant := ⟨commit_id, commit_time⟩
    let recs0 := entryInit recs d.newPath
    let entry0 := (alookup d.newPath recs0).getD []
    match d.status with
    | .added =>
      (get_json_data commit_tree d.newPath args.primary_key).bind
        fun (new_content : RecordMap) =>
          let evs := (σ new_content).map (fun (kv : String × Json) => (kv.1, ChangeType.added))
          .ok (insertRM recs0 d.newPath (applyEvents entry0 change_instant evs))
    | .deleted =>
      (get_json_data parent_tree d.oldPath args.primary_key).bind
        fun (old_content : RecordMap) =>
          let evs := (σ old_content).map (fun (kv : String × Json) => (kv.1, ChangeType.removed))
          .ok (insertRM recs0 d.newPath (applyEvents entry0 change_instant evs))
    | .modified =>
      (get_json_data commit_tree d.newPath args.primary_key).bind
        fun (new_content : RecordMap) =>
          (get_json_data parent_tree d.oldPath args.primary_key).bind
            fun (old_content : RecordMap) =>
              let evs := modifiedEvents old_content new_content σ τ
              .ok (insertRM recs0 d.newPath (applyEvents entry0 change_instant evs))

/-- Loop-iteration outcome of the cache-free program. -/
inductive StepResNC where
  | cont (recs : AllRecords)
  | brk (recs : AllRecords)
  | fail (msg : String)
deriving DecidableEq

/-- The loop body with the cache (and the `prev_oid` bookkeeping that only
serves the cache) removed. -/
def processOidNoCache (args : RunArgs) (σ : MapOrder) (τ : SetOrder) (repo : Repo)
    (until_commit : String) (recs : AllRecords) (oid : String) : StepResNC :=
  if oid ∈ args.ignore_revs then
    .cont recs
  else if oid = until_commit then
    .brk recs
  else
    match findCommit repo oid with
    | none => .fail "Failed to find commit"
    | some commit =>
      if args.include_authors ≠ []
          ∧ commit.authorName ∉ args.include_authors
          ∧ commit.authorEmail ∉ args.include_authors then
        .cont recs
      else
        match commit.parents.head? with
        | none => .brk recs
        | some pid =>
          match findCommit repo pid with
          | none => .brk recs
          | some parent_commit =>
            match (diffTrees parent_commit.tree commit.tree).foldlM
                (processDeltaNoCache args σ τ parent_commit.tree commit.tree
                  commit.cid commit.timestamp)
                recs with
            | .error m => .fail m
            | .ok recs2 => .cont recs2

/-- Cache-free walk loop. -/
def runWalkNoCache (args : RunArgs) (σ : MapOrder) (τ : SetOrder) (repo : Repo)
    (until_commit : String) : List String → AllRecords → Except String AllRecords
  | [], recs => .ok recs
  | oid :: rest, recs =>
    match processOidNoCache args σ τ repo until_commit recs oid with
    | .cont recs2 => runWalkNoCache args σ τ repo until_commit rest recs2
    | .brk recs2 => .ok recs2
    | .fail m => .error m

/-- The whole program with the lookahead cache removed. -/
def runMainNoCache (args : RunArgs) (σ : MapOrder) (τ : SetOrder) (repo : Repo) :
    Except String AllRecords :=
  match (match args.untilRev with
         | some u =>
           match findCommit repo u with
           | some c => Except.ok c.cid
           | none => Except.error "Failed to find until commit"
         | none => Except.ok zeroOid) with
  | .error m => .error m
  | .ok until_commit =>
    runWalkNoCache args σ τ repo until_commit (revwalk repo) []

theorem processDelta_empty_cache (args : RunArgs) (σ : MapOrder) (τ : SetOrder)
    (pt ct : GitTree) (cid : String) (t : Int) (st : DeltaState) (d : Delta)
    (h : st.cached_data = []) :
    (∃ ds, processDelta args σ τ pt ct cid t st d = .ok ds
        ∧ ds.cached_data = []
        ∧ processDeltaNoCache args σ τ pt ct cid t st.change_records d
            = .ok ds.change_records)
    ∨ (∃ m, processDelta args σ τ pt ct cid t st d = .error m
        ∧ processDeltaNoCache args σ τ pt ct cid t st.change_records d = .error m) := by
  obtain ⟨recs, cache, nextc⟩ := st
  simp only at h
  subst h
  by_cases h1 : d.oldPath ≠ d.newPath
  · right
    refine ⟨"Old path does not match new path", ?_, ?_⟩ <;>
      simp [processDelta, processDeltaNoCache, h1]
  · by_cases h2 : args.includeMatch d.oldPath
    · cases hst : d.status with
      | added =>
        simp only [processDelta, processDeltaNoCache, if_neg h1, h2, not_true_eq_false,
          if_neg, hst, aremove]
        cases hg : get_json_data ct d.newPath args.primary_key with
        | error m =>
          right
          exact ⟨m, by simp [hg, Except.bind], by simp [hg, Except.bind]⟩
        | ok new_content =>
          left
          simp only [hg, Except.bind]
          exact ⟨_, rfl, rfl, rfl⟩
      | deleted =>
        simp only [processDelta, processDeltaNoCache, if_neg h1, h2, not_true_eq_false,
          if_neg, hst]
        cases hg : get_json_data pt d.oldPath args.primary_key with
        | error m =>
          right
          exact ⟨m, by simp [hg, Except.bind], by simp [hg, Except.bind]⟩
        | ok old_content =>
          left
          simp only [hg, Except.bind]
          exact ⟨_, rfl, rfl, rfl⟩
      | modified =>
        simp only [processDelta, processDeltaNoCache, if_neg h1, h2, not_true_eq_false,
          if_neg, hst, aremove]
        cases hg : get_json_data ct d.newPath args.primary_key with
        | error m =>
          right
          exact ⟨m, by simp [hg, Except.bind], by simp [hg, Except.bind]⟩
        | ok new_content =>
          cases hg2 : get_json_data pt d.oldPath args.primary_key with
          | error m =>
            right
            exact ⟨m, by simp [hg, hg2, Except.bind], by simp [hg, hg2, Except.bind]⟩
          | ok old_content =>
            left
            simp only [hg, hg2, Except.bind]
            exact ⟨_, rfl, rfl, rfl⟩
    · left
      refine ⟨⟨recs, [], nextc⟩, ?_, rfl, ?_⟩ <;>
        simp [processDelta, processDeltaNoCache, h1, h2]

theorem foldDeltas_empty_cache (args : RunArgs) (σ : MapOrder) (τ : SetOrder)
    (pt ct : GitTree) (cid : String) (t : Int) :
    ∀ (deltas : List Delta) (st : DeltaState), st.cached_data = [] →
    (∃ ds, deltas.foldlM (processDelta args σ τ pt ct cid t) st = .ok ds
        ∧ ds.cached_data = []
        ∧ deltas.foldlM (processDeltaNoCache args σ τ pt ct cid t) st.change_records
            = .ok ds.change_records)
    ∨ (∃ m, deltas.foldlM (processDelta args σ τ pt ct cid t) st = .error m
        ∧ deltas.foldlM (processDeltaNoCache args σ τ pt ct cid t) st.change_records
            = .error m) := by
  intro deltas
  induction deltas with
  | nil =>
    intro st h
    exact Or.inl ⟨st, rfl, h, rfl⟩
  | cons d rest ih =>
    intro st h
    rcases processDelta_empty_cache args σ τ pt ct cid t st d h with
      ⟨ds1, hok, hc1, hnc⟩ | ⟨m, herr, hncerr⟩
    · rw [List.foldlM_cons, List.foldlM_cons, hok, hnc]
      rcases ih ds1 hc1 with ⟨ds2, hok2, hc2, hnc2⟩ | ⟨m, herr2, hncerr2⟩
      · exact Or.inl ⟨ds2, by simpa using hok2, hc2, by simpa using hnc2⟩
      · exact Or.inr ⟨m, by simpa using herr2, by simpa using hncerr2⟩
    · rw [List.foldlM_cons, List.foldlM_cons, herr, hncerr]
      exact Or.inr ⟨m, rfl, rfl⟩

theorem processOid_nocache (args : RunArgs) (σ : MapOrder) (τ : SetOrder) (repo : Repo)
    (u : String) (s : LoopState) (oid : String) (h : oid ≠ s.prev_oid) :
    (∃ s2, processOid args σ τ repo u s oid = .cont s2
        ∧ processOidNoCache args σ τ repo u s.change_records oid = .cont s2.change_records
        ∧ (s2.prev_oid = oid ∨ s2.prev_oid = s.prev_oid))
    ∨ (∃ s2, processOid args σ τ repo u s oid = .brk s2
        ∧ processOidNoCache args σ τ repo u s.change_records oid = .brk s2.change_records)
    ∨ (∃ m, processOid args σ τ repo u s oid = .fail m
        ∧ processOidNoCache args σ τ repo u s.change_records oid = .fail m) := by
  simp only [processOid, processOidNoCache, if_pos h]
  by_cases h1 : oid ∈ args.ignore_revs
  · simp only [if_pos h1]
    exact Or.inl ⟨_, rfl, rfl, Or.inr rfl⟩
  · simp only [if_neg h1]
    by_cases h2 : oid = u
    · simp only [if_pos h2]
      exact Or.inr (Or.inl ⟨_, rfl, rfl⟩)
    · simp only [if_neg h2]
      cases hf : findCommit repo oid with
      | none => exact Or.inr (Or.inr ⟨_, rfl, rfl⟩)
      | some commit =>
        by_cases h3 : args.include_authors ≠ []
            ∧ commit.authorName ∉ args.include_authors
            ∧ commit.authorEmail ∉ args.include_authors
        · simp only [if_pos h3]
          exact Or.inl ⟨_, rfl, rfl, Or.inr rfl⟩
        · simp only [if_neg h3]
          cases hp : commit.parents.head? with
          | none => exact Or.inr (Or.inl ⟨_, rfl, rfl⟩)
          | some pid =>
            dsimp only
            cases hpf : findCommit repo pid with
            | none => exact Or.inr (Or.inl ⟨_, rfl, rfl⟩)
            | some parent_commit =>
              dsimp only
              rcases foldDeltas_empty_cache args σ τ parent_commit.tree commit.tree
                  commit.cid commit.timestamp
                  (diffTrees parent_commit.tree commit.tree)
                  ⟨s.change_records, [], []⟩ rfl with
                ⟨ds, hok, _, hnc⟩ | ⟨m, herr, hncerr⟩
              · rw [hok, hnc]
                exact Or.inl ⟨_, rfl, rfl, Or.inl rfl⟩
              · rw [herr, hncerr]
                exact Or.inr (Or.inr ⟨m, rfl, rfl⟩)

theorem runWalk_nocache (args : RunArgs) (σ : MapOrder) (τ : SetOrder) (repo : Repo)
    (u : String) :
    ∀ (oids : List String) (s : LoopState), s.prev_oid ∉ oids → oids.Nodup →
    (runWalk args σ τ repo u oids s).map (fun s2 => s2.change_records)
      = runWalkNoCache args σ τ repo u oids s.change_records := by
  intro oids
  induction oids with
  | nil => intro s _ _; rfl
  | cons oid rest ih =>
    intro s hprev hnodup
    have hne : oid ≠ s.prev_oid := by
      intro he
      exact hprev (he ▸ List.mem_cons_self _ _)
    rcases processOid_nocache args σ τ repo u s oid hne with
      ⟨s2, hc, hnc, halt⟩ | ⟨s2, hb, hnb⟩ | ⟨m, hfm, hnf⟩
    · simp only [runWalk, runWalkNoCache, hc, hnc]
      refine ih s2 ?_ (List.Nodup.of_cons hnodup)
      rcases halt with he | he
      · rw [he]
        exact (List.nodup_cons.mp hnodup).1
      · rw [he]
        exact fun hm => hprev (List.mem_cons_of_mem _ hm)
    · simp only [runWalk, runWalkNoCache, hb, hnb]
      rfl
    · simp only [runWalk, runWalkNoCache, hfm, hnf]
      rfl

theorem runMain_eq_noCache (args : RunArgs) (σ : MapOrder) (τ : SetOrder) (repo : Repo)
    (hzero : ∀ c ∈ repo.commits, c.cid ≠ zeroOid) :
    runMain args σ τ repo = runMainNoCache args σ τ repo := by
  unfold runMain runMainNoCache
  have hzw : zeroOid ∉ revwalk repo := by
    intro hin
    obtain ⟨c, hc⟩ := revwalk_resolvable repo _ hin
    exact hzero c (findCommit_mem hc) (findCommit_cid hc)
  cases hu : (match args.untilRev with
         | some u =>
           match findCommit repo u with
           | some c => Except.ok c.cid
           | none => Except.error "Failed to find until commit"
         | none => Except.ok zeroOid) with
  | error m => rfl
  | ok u =>
    dsimp only
    have hw := runWalk_nocache args σ τ repo u (revwalk repo) ⟨[], [], zeroOid⟩
      hzw (revwalk_nodup repo)
    cases hr : runWalk args σ τ repo u (revwalk repo) ⟨[], [], zeroOid⟩ with
    | ok st =>
      dsimp only
      rw [hr] at hw
      simp only [Except.map] at hw
      exact hw
    | error m =>
      dsimp only
      rw [hr] at hw
      simp only [Except.map] at hw
      exact hw

/-- C3: the lookahead cache is a no-op.  The revwalk never repeats an id
(so the current id differs from the previously processed one on every
iteration and the cache is cleared before it can be read), and on every
repository whose commit ids avoid the zero-oid sentinel the program
computes exactly the timelines of the same program with the cache removed
entirely — in particular the new-side record map of the Added and Modified
branches is always freshly extracted. -/
theorem C3_cache_is_noop (args : RunArgs) (σ : MapOrder) (τ : SetOrder) (repo : Repo)
    (hzero : ∀ c ∈ repo.commits, c.cid ≠ zeroOid) :
    runMain args σ τ repo = runMainNoCache args σ τ repo ∧ (revwalk repo).Nodup :=
  ⟨runMain_eq_noCache args σ τ repo hzero, revwalk_nodup repo⟩

/-- Witness for C3: the cached and cache-free programs agree on the
lifecycle scenario repository. -/
theorem C3_cache_is_noop_witness :
    (∀ c ∈ exLifecycleRepo.commits, c.cid ≠ zeroOid)
    ∧ (runMain exArgs id id exLifecycleRepo = runMainNoCache exArgs id id exLifecycleRepo
        ∧ (revwalk exLifecycleRepo).Nodup) :=
  ⟨by decide, C3_cache_is_noop exArgs id id exLifecycleRepo (by decide)⟩

theorem mem_iff_alookup_of_nodup {β : Type} {l : List (String × β)}
    (hnd : (l.map Prod.fst).Nodup) (k : String) (v : β) :
    (k, v) ∈ l ↔ alookup k l = some v := by
  constructor
  · intro hm
    induction l with
    | nil => simp at hm
    | cons p rest ih =>
      obtain ⟨k2, v2⟩ := p
      rcases List.mem_cons.mp hm with h | h
      · obtain ⟨he1, he2⟩ := Prod.mk.injEq .. ▸ h
        injection h with h
        simp [alookup, he1.symm, he2]
      · have hk2 : k2 ≠ k := by
          intro he
          subst he
          simp only [List.map_cons, List.nodup_cons] at hnd
          exact hnd.1 (List.mem_map.mpr ⟨(k2, v), h, rfl⟩)
        simp only [alookup, if_neg hk2]
        exact ih (by simpa using (List.nodup_cons.mp (by simpa using hnd)).2) h
  · exact alookup_mem

theorem extractRecords_nodup (primary_key : String) :
    ∀ (content : List Json) (m res : RecordMap),
    (m.map Prod.fst).Nodup →
    extractRecords primary_key content m = .ok res →
    (res.map Prod.fst).Nodup := by
  intro content
  induction content with
  | nil =>
    intro m res hnd h
    simp only [extractRecords] at h
    injection h with h
    exact h ▸ hnd
  | cons r rest ih =>
    intro m res hnd h
    simp only [extractRecords] at h
    cases hp : pkValue primary_key r with
    | none => rw [hp] at h; exact absurd h (by simp)
    | some k =>
      rw [hp] at h
      exact ih _ res (nodup_keys_insertRM k r hnd) h

theorem get_json_data_nodup {tree : GitTree} {path primary_key : String} {m : RecordMap}
    (h : get_json_data tree path primary_key = .ok m) : (m.map Prod.fst).Nodup := by
  unfold get_json_data at h
  cases hl : alookup path tree with
  | none => rw [hl] at h; exact absurd h (by simp)
  | some content =>
    rw [hl] at h
    exact extractRecords_nodup primary_key content [] m (by simp) h

theorem filterMap_keys_sublist {β γ : Type} :
    ∀ (l : List (String × β)) (f : (String × β) → Option (String × γ)),
    (∀ kv y, f kv = some y → y.1 = kv.1) →
    ((l.filterMap f).map Prod.fst).Sublist (l.map Prod.fst) := by
  intro l f hf
  induction l with
  | nil => simp
  | cons kv rest ih =>
    rw [List.filterMap_cons]
    cases hk : f kv with
    | none =>
      exact ih.trans (by simp)
    | some y =>
      rw [List.map_cons, List.map_cons, hf kv y hk]
      exact ih.cons₂ _

theorem mapEvents_keys {m : RecordMap} {t0 : ChangeType} :
    ((m.map (fun (kv : String × Json) => (kv.1, t0))).map Prod.fst) = m.map Prod.fst := by
  rw [List.map_map]
  rfl

theorem mapEvents_mem {σ : MapOrder} (hσ : ∀ l, (σ l).Perm l) (m : RecordMap)
    (t0 : ChangeType) (k : String) (t : ChangeType) :
    (k, t) ∈ (σ m).map (fun (kv : String × Json) => (kv.1, t0))
      ↔ t = t0 ∧ k ∈ m.map Prod.fst := by
  rw [List.mem_map]
  constructor
  · rintro ⟨kv, hkv, he⟩
    obtain ⟨he1, he2⟩ := Prod.mk.injEq .. ▸ he
    exact ⟨he2.symm, he1 ▸ List.mem_map.mpr ⟨kv, (hσ m).mem_iff.mp hkv, rfl⟩⟩
  · rintro ⟨ht, hk⟩
    obtain ⟨kv, hkv, he⟩ := List.mem_map.mp hk
    exact ⟨kv, (hσ m).mem_iff.mpr hkv, by rw [he, ht]⟩

/-- The per-entry classifier of the old-side loop in the Modified branch. -/
def modifiedClassify (new_content : RecordMap) (kv : String × Json) :
    Option (String × ChangeType) :=
  match alookup kv.1 new_content with
  | some new_val =>
    if deep_diff_json kv.2 new_val then some (kv.1, ChangeType.modified) else none
  | none => some (kv.1, ChangeType.removed)

theorem modifiedEvents_eq (old_content new_content : RecordMap) (σ : MapOrder)
    (τ : SetOrder) :
    modifiedEvents old_content new_content σ τ
      = (σ old_content).filterMap (modifiedClassify new_content)
        ++ (τ ((new_content.map Prod.fst).filter
              (fun k => (alookup k old_content).isNone))).map
            (fun k => (k, ChangeType.added)) := rfl

theorem modifiedClassify_key {new_content : RecordMap} {kv : String × Json}
    {y : String × ChangeType} (h : modifiedClassify new_content kv = some y) :
    y.1 = kv.1 := by
  unfold modifiedClassify at h
  cases hl : alookup kv.1 new_content with
  | none =>
    rw [hl] at h
    dsimp only at h
    injection h with h
    rw [← h]
  | some nv =>
    rw [hl] at h
    dsimp only at h
    by_cases hd : deep_diff_json kv.2 nv = true
    · rw [if_pos hd] at h
      injection h with h
      rw [← h]
    · rw [if_neg hd] at h
      exact absurd h (by simp)

theorem modifiedEvents_mem {old_content new_content : RecordMap} {σ : MapOrder}
    {τ : SetOrder} (hσ : ∀ l, (σ l).Perm l) (hτ : ∀ l, (τ l).Perm l)
    (hold : (old_content.map Prod.fst).Nodup) (k : String) (t : ChangeType) :
    (k, t) ∈ modifiedEvents old_content new_content σ τ ↔
      (t = ChangeType.removed ∧ k ∈ old_content.map Prod.fst
        ∧ k ∉ new_content.map Prod.fst)
      ∨ (t = ChangeType.modified ∧ ∃ ov nv, alookup k old_content = some ov
          ∧ alookup k new_content = some nv ∧ deep_diff_json ov nv = true)
      ∨ (t = ChangeType.added ∧ k ∈ new_content.map Prod.fst
          ∧ k ∉ old_content.map Prod.fst) := by
  rw [modifiedEvents_eq, List.mem_append]
  constructor
  · rintro (h | h)
    · obtain ⟨kv, hkv, hf⟩ := List.mem_filterMap.mp h
      obtain ⟨k2, ov⟩ := kv
      have hkv2 : (k2, ov) ∈ old_content := (hσ old_content).mem_iff.mp hkv
      unfold modifiedClassify at hf
      cases hl : alookup k2 new_content with
      | none =>
        rw [hl] at hf
        dsimp only at hf
        injection hf with hf2
        obtain ⟨he1, he2⟩ := Prod.ext_iff.mp hf2
        simp only at he1 he2
        refine Or.inl ⟨he2.symm, he1 ▸ List.mem_map.mpr ⟨(k2, ov), hkv2, rfl⟩, ?_⟩
        rw [← alookup_eq_none_iff_not_mem, ← he1]
        exact hl
      | some nv =>
        rw [hl] at hf
        dsimp only at hf
        by_cases hd : deep_diff_json ov nv = true
        · rw [if_pos hd] at hf
          injection hf with hf2
          obtain ⟨he1, he2⟩ := Prod.ext_iff.mp hf2
          simp only at he1 he2
          refine Or.inr (Or.inl ⟨he2.symm, ov, nv, ?_, he1 ▸ hl, hd⟩)
          rw [← he1]
          exact (mem_iff_alookup_of_nodup hold k2 ov).mp hkv2
        · rw [if_neg hd] at hf
          exact absurd hf (by simp)
    · obtain ⟨k2, hk2, he⟩ := List.mem_map.mp h
      obtain ⟨he1, he2⟩ := Prod.ext_iff.mp he
      simp only at he1 he2
      have hk3 := (hτ _).mem_iff.mp hk2
      obtain ⟨hmem, hnone⟩ := List.mem_filter.mp hk3
      refine Or.inr (Or.inr ⟨he2.symm, he1 ▸ hmem, ?_⟩)
      rw [← alookup_eq_none_iff_not_mem, ← he1]
      exact Option.isNone_iff_eq_none.mp hnone
  · rintro (⟨ht, hmem, hnot⟩ | ⟨ht, ov, nv, hov, hnv, hd⟩ | ⟨ht, hmem, hnot⟩)
    · subst ht
      obtain ⟨kv, hkv, hke⟩ := List.mem_map.mp hmem
      obtain ⟨k2, ov⟩ := kv
      simp only at hke
      refine Or.inl (List.mem_filterMap.mpr ⟨(k2, ov), (hσ _).mem_iff.mpr hkv, ?_⟩)
      unfold modifiedClassify
      dsimp only
      rw [hke, alookup_eq_none_iff_not_mem k new_content |>.mpr hnot]
    · subst ht
      refine Or.inl (List.mem_filterMap.mpr
        ⟨(k, ov), (hσ _).mem_iff.mpr (alookup_mem hov), ?_⟩)
      unfold modifiedClassify
      dsimp only
      rw [hnv]
      dsimp only
      rw [if_pos hd]
    · subst ht
      refine Or.inr (List.mem_map.mpr ⟨k, ?_, rfl⟩)
      refine (hτ _).mem_iff.mpr (List.mem_filter.mpr ⟨hmem, ?_⟩)
      rw [Option.isNone_iff_eq_none, alookup_eq_none_iff_not_mem]
      exact hnot

theorem modifiedEvents_nodup {old_content new_content : RecordMap} {σ : MapOrder}
    {τ : SetOrder} (hσ : ∀ l, (σ l).Perm l) (hτ : ∀ l, (τ l).Perm l)
    (hold : (old_content.map Prod.fst).Nodup)
    (hnew : (new_content.map Prod.fst).Nodup) :
    ((modifiedEvents old_content new_content σ τ).map Prod.fst).Nodup := by
  rw [modifiedEvents_eq, List.map_append]
  have hkeysub :
      (((σ old_content).filterMap (modifiedClassify new_content)).map Prod.fst).Sublist
        ((σ old_content).map Prod.fst) :=
    filterMap_keys_sublist _ _ (fun kv y h => modifiedClassify_key h)
  have hσnodup : ((σ old_content).map Prod.fst).Nodup :=
    (((hσ old_content).map Prod.fst).nodup_iff).mpr hold
  have h1 : (((σ old_content).filterMap (modifiedClassify new_content)).map Prod.fst).Nodup :=
    hσnodup.sublist hkeysub
  have hunseen : ((new_content.map Prod.fst).filter
      (fun k => (alookup k old_content).isNone)).Nodup :=
    hnew.filter _
  have hτnodup : ((τ ((new_content.map Prod.fst).filter
      (fun k => (alookup k old_content).isNone)))).Nodup :=
    ((hτ _).nodup_iff).mpr hunseen
  have h2 : (((τ ((new_content.map Prod.fst).filter
      (fun k => (alookup k old_content).isNone))).map
        (fun k => (k, ChangeType.added))).map Prod.fst).Nodup := by
    rw [List.map_map]
    have hcomp : (Prod.fst ∘ fun k : String => (k, ChangeType.added)) = fun k => k := rfl
    rw [hcomp]
    simpa using hτnodup
  refine List.nodup_append.mpr ⟨h1, h2, ?_⟩
  intro a ha hb
  have haold : a ∈ old_content.map Prod.fst := by
    have := hkeysub.mem ha
    exact ((hσ old_content).map Prod.fst).mem_iff.mp this
  rw [List.map_map] at hb
  have hb2 : a ∈ τ ((new_content.map Prod.fst).filter
      (fun k => (alookup k old_content).isNone)) := by
    simpa using hb
  have hb3 := (hτ _).mem_iff.mp hb2
  obtain ⟨_, hnone⟩ := List.mem_filter.mp hb3
  rw [Option.isNone_iff_eq_none, alookup_eq_none_iff_not_mem] at hnone
  exact hnone haold

/-- C7: within one (path, commit) delta each primary key receives at most
one event, and the event kind follows the delta status.  Record maps
produced by extraction always have pairwise-distinct keys; an Added delta
emits exactly one Added event per key of the new-side map; a Deleted delta
exactly one Removed event per key of the old-side map; a Modified delta's
event list has pairwise-distinct keys and contains `(k, Removed)` iff `k`
is only in the old map, `(k, Added)` iff `k` is only in the new map,
`(k, Modified)` iff `k` is in both with structurally differing values —
and nothing for a key in both with equal values. -/
theorem C7_one_event_per_key :
    (∀ (tree : GitTree) (path pk : String) (m : RecordMap),
        get_json_data tree path pk = .ok m → (m.map Prod.fst).Nodup)
    ∧ (∀ (σ : MapOrder) (new_content : RecordMap), (∀ l, (σ l).Perm l) →
        (new_content.map Prod.fst).Nodup →
        ((((σ new_content).map
            (fun (kv : String × Json) => (kv.1, ChangeType.added))).map Prod.fst).Nodup
          ∧ ∀ k t, (k, t) ∈ (σ new_content).map
                (fun (kv : String × Json) => (kv.1, ChangeType.added))
              ↔ t = ChangeType.added ∧ k ∈ new_content.map Prod.fst))
    ∧ (∀ (σ : MapOrder) (old_content : RecordMap), (∀ l, (σ l).Perm l) →
        (old_content.map Prod.fst).Nodup →
        ((((σ old_content).map
            (fun (kv : String × Json) => (kv.1, ChangeType.removed))).map Prod.fst).Nodup
          ∧ ∀ k t, (k, t) ∈ (σ old_content).map
                (fun (kv : String × Json) => (kv.1, ChangeType.removed))
              ↔ t = ChangeType.removed ∧ k ∈ old_content.map Prod.fst))
    ∧ (∀ (σ : MapOrder) (τ : SetOrder) (old_content new_content : RecordMap),
        (∀ l, (σ l).Perm l) → (∀ l, (τ l).Perm l) →
        (old_content.map Prod.fst).Nodup → (new_content.map Prod.fst).Nodup →
        (((modifiedEvents old_content new_content σ τ).map Prod.fst).Nodup
          ∧ ∀ k t, (k, t) ∈ modifiedEvents old_content new_content σ τ ↔
              (t = ChangeType.removed ∧ k ∈ old_content.map Prod.fst
                ∧ k ∉ new_content.map Prod.fst)
              ∨ (t = ChangeType.modified ∧ ∃ ov nv, alookup k old_content = some ov
                  ∧ alookup k new_content = some nv ∧ deep_diff_json ov nv = true)
              ∨ (t = ChangeType.added ∧ k ∈ new_content.map Prod.fst
                  ∧ k ∉ old_content.map Prod.fst))) := by
  refine ⟨fun tree path pk m h => get_json_data_nodup h, ?_, ?_, ?_⟩
  · intro σ new_content hσ hnd
    refine ⟨?_, fun k t => mapEvents_mem hσ new_content ChangeType.added k t⟩
    rw [mapEvents_keys]
    exact (((hσ new_content).map Prod.fst).nodup_iff).mpr hnd
  · intro σ old_content hσ hnd
    refine ⟨?_, fun k t => mapEvents_mem hσ old_content ChangeType.removed k t⟩
    rw [mapEvents_keys]
    exact (((hσ old_content).map Prod.fst).nodup_iff).mpr hnd
  · intro σ τ old_content new_content hσ hτ hold hnew
    exact ⟨modifiedEvents_nodup hσ hτ hold hnew,
      fun k t => modifiedEvents_mem hσ hτ hold k t⟩

/-- Witness for C7: the Modified-branch classification at a concrete pair
of record maps (`a` removed, `b` modified, `c` added, each exactly once). -/
theorem C7_one_event_per_key_witness :
    ((([("a", Json.num 1), ("b", Json.num 2)] : RecordMap).map Prod.fst).Nodup
      ∧ (([("b", Json.num 3), ("c", Json.num 4)] : RecordMap).map Prod.fst).Nodup)
    ∧ ((modifiedEvents [("a", Json.num 1), ("b", Json.num 2)]
          [("b", Json.num 3), ("c", Json.num 4)] id id).map Prod.fst).Nodup
    ∧ modifiedEvents [("a", Json.num 1), ("b", Json.num 2)]
        [("b", Json.num 3), ("c", Json.num 4)] id id
        = [("a", ChangeType.removed), ("b", ChangeType.modified), ("c", ChangeType.added)] :=
  ⟨⟨by decide, by decide⟩,
    (C7_one_event_per_key.2.2.2 id id
      [("a", Json.num 1), ("b", Json.num 2)] [("b", Json.num 3), ("c", Json.num 4)]
      (fun l => List.Perm.refl l) (fun l => List.Perm.refl l)
      (by decide) (by decide)).1,
    by decide⟩

/-- Commit timestamps strictly decrease from child to parent (the normal
shape of a repository's history). -/
def TimeMono (repo : Repo) : Prop :=
  ∀ c ∈ repo.commits, ∀ p cp, p ∈ c.parents → findCommit repo p = some cp →
    cp.timestamp < c.timestamp

theorem pickMax_le_time : ∀ (l : List Commit) (c : Commit), ∀ x ∈ c :: l,
    x.timestamp ≤ (pickMax c l).1.timestamp := by
  intro l
  induction l with
  | nil =>
    intro c x hx
    simp only [List.mem_singleton] at hx
    subst hx
    exact le_refl _
  | cons d rest ih =>
    intro c x hx
    by_cases h : d.timestamp > c.timestamp
    · simp only [pickMax, if_pos h]
      rcases List.mem_cons.mp hx with hx | hx
      · rw [hx]
        exact le_of_lt (lt_of_lt_of_le h (ih d d (by simp)))
      · exact ih d x hx
    · simp only [pickMax, if_neg h]
      rcases List.mem_cons.mp hx with hx | hx
      · rw [hx]
        exact ih c c (by simp)
      · rcases List.mem_cons.mp hx with hx | hx
        · rw [hx]
          exact le_trans (le_of_not_lt h) (ih c c (by simp))
        · exact ih c x (List.mem_cons_of_mem _ hx)

/-- Resolved timestamps of a walked id sequence. -/
def walkTimes (repo : Repo) (l : List String) : List Int :=
  l.filterMap (fun i => (findCommit repo i).map Commit.timestamp)

theorem walkTimes_cons_some {repo : Repo} {i : String} {c : Commit} {l : List String}
    (h : findCommit repo i = some c) :
    walkTimes repo (i :: l) = c.timestamp :: walkTimes repo l := by
  simp [walkTimes, List.filterMap_cons, h]

theorem walkAux_times {repo : Repo} (hmono : TimeMono repo) :
    ∀ (fuel : Nat) (frontier : List Commit) (seen : List String) (b : Int),
    (∀ c ∈ frontier, findCommit repo c.cid = some c) →
    (∀ c ∈ frontier, c.timestamp ≤ b) →
    (∀ t ∈ walkTimes repo (walkAux repo fuel frontier seen), t ≤ b)
    ∧ List.Sorted (fun a c : Int => c ≤ a)
        (walkTimes repo (walkAux repo fuel frontier seen)) := by
  intro fuel
  induction fuel with
  | zero =>
    intro frontier seen b _ _
    simp [walkAux, walkTimes]
  | succ fuel ih =>
    intro frontier seen b hres hb
    cases frontier with
    | nil => simp [walkAux, walkTimes]
    | cons f fs =>
      have hmres := hres _ (pickMax_fst_mem f fs)
      have hmmem : (pickMax f fs).1 ∈ repo.commits := findCommit_mem hmres
      have hmb : (pickMax f fs).1.timestamp ≤ b := hb _ (pickMax_fst_mem f fs)
      have hfres2 : ∀ c ∈ (enqueueParents repo (pickMax f fs).1.parents
          (pickMax f fs).2 seen).1, findCommit repo c.cid = some c := by
        intro c hc
        rcases enqueueParents_fst_mem _ _ _ c hc with h2 | ⟨p, hp, hf2⟩
        · exact hres c (pickMax_snd_subset h2)
        · rw [findCommit_cid hf2]
          exact hf2
      have hfb2 : ∀ c ∈ (enqueueParents repo (pickMax f fs).1.parents
          (pickMax f fs).2 seen).1, c.timestamp ≤ (pickMax f fs).1.timestamp := by
        intro c hc
        rcases enqueueParents_fst_mem _ _ _ c hc with h2 | ⟨p, hp, hf2⟩
        · exact pickMax_le_time fs f c (pickMax_snd_subset h2)
        · exact le_of_lt (hmono _ hmmem p c hp hf2)
      obtain ⟨htb, hts⟩ := ih _ _ (pickMax f fs).1.timestamp hfres2 hfb2
      have hwt : walkTimes repo (walkAux repo (fuel + 1) (f :: fs) seen)
          = (pickMax f fs).1.timestamp
            :: walkTimes repo (walkAux repo fuel
                (enqueueParents repo (pickMax f fs).1.parents (pickMax f fs).2 seen).1
                (enqueueParents repo (pickMax f fs).1.parents (pickMax f fs).2 seen).2) := by
        simp only [walkAux]
        exact walkTimes_cons_some hmres
      rw [hwt]
      constructor
      · intro t ht
        rcases List.mem_cons.mp ht with ht | ht
        · subst ht; exact hmb
        · exact le_trans (htb t ht) hmb
      · rw [List.sorted_cons]
        exact ⟨fun t ht => htb t ht, hts⟩

theorem revwalk_times_sorted {repo : Repo} (hmono : TimeMono repo) :
    List.Sorted (fun a c : Int => c ≤ a) (walkTimes repo (revwalk repo)) := by
  unfold revwalk
  cases hf : findCommit repo repo.headId with
  | none => simp [walkTimes]
  | some c =>
    refine (walkAux_times hmono _ [c] [repo.headId] c.timestamp ?_ ?_).2
    · intro d hd
      simp only [List.mem_singleton] at hd
      subst hd
      rw [findCommit_cid hf]
      exact hf
    · intro d hd
      simp only [List.mem_singleton] at hd
      subst hd
      exact le_refl _

/-- Stored event lists are in reverse-chronological append order (the walk
visits newer commits first) with every timestamp at least `b`. -/
def instListOk (b : Int) (l : List ChangeInstant) : Prop :=
  List.Sorted (fun a c : ChangeInstant => c.timestamp ≤ a.timestamp) l
    ∧ ∀ ci ∈ l, b ≤ ci.timestamp

/-- Both event-list invariants for the three lists of a record. -/
def recOk (b : Int) (r : ChangeRecord) : Prop :=
  instListOk b r.added ∧ instListOk b r.removed ∧ instListOk b r.modified

/-- Invariant over one path's timeline map. -/
def pathOk (b : Int) (m : PathRecords) : Prop := ∀ km ∈ m, recOk b km.2

/-- Invariant over all accumulated timelines. -/
def recsOk (b : Int) (recs : AllRecords) : Prop := ∀ pm ∈ recs, pathOk b pm.2

theorem instListOk_mono {b b2 : Int} {l : List ChangeInstant} (h : instListOk b l)
    (hb : b2 ≤ b) : instListOk b2 l :=
  ⟨h.1, fun ci hci => le_trans hb (h.2 ci hci)⟩

theorem recOk_mono {b b2 : Int} {r : ChangeRecord} (h : recOk b r) (hb : b2 ≤ b) :
    recOk b2 r :=
  ⟨instListOk_mono h.1 hb, instListOk_mono h.2.1 hb, instListOk_mono h.2.2 hb⟩

theorem pathOk_mono {b b2 : Int} {m : PathRecords} (h : pathOk b m) (hb : b2 ≤ b) :
    pathOk b2 m :=
  fun km hkm => recOk_mono (h km hkm) hb

theorem recsOk_mono {b b2 : Int} {recs : AllRecords} (h : recsOk b recs) (hb : b2 ≤ b) :
    recsOk b2 recs :=
  fun pm hpm => pathOk_mono (h pm hpm) hb

theorem instListOk_nil (b : Int) : instListOk b [] := ⟨List.sorted_nil, by simp⟩

theorem instListOk_append {b t : Int} {l : List ChangeInstant} {cid : String}
    (h : instListOk b l) (ht : t ≤ b) : instListOk t (l ++ [⟨cid, t⟩]) := by
  constructor
  · rw [List.Sorted, List.pairwise_append]
    refine ⟨h.1, by simp, ?_⟩
    intro x hx y hy
    simp only [List.mem_singleton] at hy
    subst hy
    exact le_trans ht (h.2 x hx)
  · intro ci hci
    rcases List.mem_append.mp hci with hci | hci
    · exact le_trans ht (h.2 ci hci)
    · simp only [List.mem_singleton] at hci
      subst hci
      exact le_refl _

theorem pushInstant_ok {b t : Int} {r : ChangeRecord} {cid : String} {ty : ChangeType}
    (h : recOk b r) (ht : t ≤ b) : recOk t (pushInstant r ⟨cid, t⟩ ty) := by
  obtain ⟨h1, h2, h3⟩ := h
  cases ty with
  | added =>
    exact ⟨instListOk_append h1 ht, instListOk_mono h2 ht, instListOk_mono h3 ht⟩
  | removed =>
    exact ⟨instListOk_mono h1 ht, instListOk_append h2 ht, instListOk_mono h3 ht⟩
  | modified =>
    exact ⟨instListOk_mono h1 ht, instListOk_mono h2 ht, instListOk_append h3 ht⟩

theorem emptyChangeRecord_ok (b : Int) : recOk b emptyChangeRecord :=
  ⟨instListOk_nil b, instListOk_nil b, instListOk_nil b⟩

theorem update_change_record_entry_ok {b t : Int} {m : PathRecords} {k cid : String}
    {ty : ChangeType} (h : pathOk b m) (ht : t ≤ b) :
    pathOk t (update_change_record_entry m k ⟨cid, t⟩ ty) := by
  induction m with
  | nil =>
    intro km hkm
    simp only [update_change_record_entry, List.mem_singleton] at hkm
    subst hkm
    exact pushInstant_ok (emptyChangeRecord_ok b) ht
  | cons p rest ih =>
    obtain ⟨k2, r⟩ := p
    intro km hkm
    simp only [update_change_record_entry] at hkm
    by_cases hk : k2 = k
    · rw [if_pos hk] at hkm
      rcases List.mem_cons.mp hkm with hkm | hkm
      · subst hkm
        exact pushInstant_ok (h (k2, r) (by simp)) ht
      · exact recOk_mono (h km (List.mem_cons_of_mem _ hkm)) ht
    · rw [if_neg hk] at hkm
      rcases List.mem_cons.mp hkm with hkm | hkm
      · subst hkm
        exact recOk_mono (h (k2, r) (by simp)) ht
      · exact ih (fun km2 hkm2 => h km2 (List.mem_cons_of_mem _ hkm2)) km hkm

theorem applyEvents_ok {t : Int} {cid : String} :
    ∀ (evs : List (String × ChangeType)) (m : PathRecords),
    pathOk t m → pathOk t (applyEvents m ⟨cid, t⟩ evs) := by
  intro evs
  induction evs with
  | nil => intro m h; exact h
  | cons e rest ih =>
    intro m h
    simp only [applyEvents, List.foldl_cons]
    exact ih _ (update_change_record_entry_ok h (le_refl t))

theorem entryInit_ok {b : Int} {recs : AllRecords} {path : String}
    (h : recsOk b recs) : recsOk b (entryInit recs path) := by
  unfold entryInit
  by_cases hp : (alookup path recs).isSome
  · rw [if_pos hp]; exact h
  · rw [if_neg hp]
    intro pm hpm
    rcases List.mem_append.mp hpm with hpm | hpm
    · exact h pm hpm
    · simp only [List.mem_singleton] at hpm
      subst hpm
      intro km hkm
      simp at hkm

theorem insertRM_recs_ok {b : Int} {recs : AllRecords} {path : String} {m : PathRecords}
    (h : recsOk b recs) (hm : pathOk b m) : recsOk b (insertRM recs path m) := by
  induction recs with
  | nil =>
    intro pm hpm
    simp only [insertRM, List.mem_singleton] at hpm
    subst hpm
    exact hm
  | cons p rest ih =>
    obtain ⟨p2, m2⟩ := p
    intro pm hpm
    simp only [insertRM] at hpm
    by_cases hp : p2 = path
    · rw [if_pos hp] at hpm
      rcases List.mem_cons.mp hpm with hpm | hpm
      · subst hpm; exact hm
      · exact h pm (List.mem_cons_of_mem _ hpm)
    · rw [if_neg hp] at hpm
      rcases List.mem_cons.mp hpm with hpm | hpm
      · subst hpm
        exact h (p2, m2) (by simp)
      · exact ih (fun pm2 hpm2 => h pm2 (List.mem_cons_of_mem _ hpm2)) pm hpm

theorem pathOk_of_alookup {b : Int} {recs : AllRecords} {path : String}
    (h : recsOk b recs) : pathOk b ((alookup path recs).getD []) := by
  cases hl : alookup path recs with
  | none => intro km hkm; simp at hkm
  | some m => exact h (path, m) (alookup_mem hl)

theorem processDelta_recsOk {b t : Int} {args : RunArgs} {σ : MapOrder} {τ : SetOrder}
    {pt ct : GitTree} {cid : String} {st : DeltaState} {d : Delta} {ds : DeltaState}
    (h : recsOk b st.change_records) (ht : t ≤ b)
    (hp : processDelta args σ τ pt ct cid t st d = .ok ds) :
    recsOk t ds.change_records := by
  unfold processDelta at hp
  by_cases h1 : d.oldPath ≠ d.newPath
  · rw [if_pos h1] at hp
    exact absurd hp (by simp)
  · rw [if_neg h1] at hp
    by_cases h2 : args.includeMatch d.oldPath
    · rw [if_neg (by simpa using h2)] at hp
      have hinit : recsOk b (entryInit st.change_records d.newPath) := entryInit_ok h
      have hentry : pathOk b ((alookup d.newPath (entryInit st.change_records d.newPath)).getD []) :=
        pathOk_of_alookup hinit
      cases hd : d.status with
      | added =>
        rw [hd] at hp
        dsimp only at hp
        cases hg : (match (aremove d.newPath st.cached_data).1 with
            | some m => Except.ok m
            | none => get_json_data ct d.newPath args.primary_key) with
        | error m => rw [hg] at hp; exact absurd hp (by simp [Except.bind])
        | ok new_content =>
          rw [hg] at hp
          simp only [Except.bind] at hp
          injection hp with hp
          rw [← hp]
          exact insertRM_recs_ok (recsOk_mono hinit ht)
            (applyEvents_ok _ _ (pathOk_mono hentry ht))
      | deleted =>
        rw [hd] at hp
        dsimp only at hp
        cases hg : get_json_data pt d.oldPath args.primary_key with
        | error m => rw [hg] at hp; exact absurd hp (by simp [Except.bind])
        | ok old_content =>
          rw [hg] at hp
          simp only [Except.bind] at hp
          injection hp with hp
          rw [← hp]
          exact insertRM_recs_ok (recsOk_mono hinit ht)
            (applyEvents_ok _ _ (pathOk_mono hentry ht))
      | modified =>
        rw [hd] at hp
        dsimp only at hp
        cases hg : (match (aremove d.newPath st.cached_data).1 with
            | some m => Except.ok m
            | none => get_json_data ct d.newPath args.primary_key) with
        | error m => rw [hg] at hp; exact absurd hp (by simp [Except.bind])
        | ok new_content =>
          rw [hg] at hp
          simp only [Except.bind] at hp
          cases hg2 : get_json_data pt d.oldPath args.primary_key with
          | error m => rw [hg2] at hp; exact absurd hp (by simp [Except.bind])
          | ok old_content =>
            rw [hg2] at hp
            simp only [Except.bind] at hp
            injection hp with hp
            rw [← hp]
            exact insertRM_recs_ok (recsOk_mono hinit ht)
              (applyEvents_ok _ _ (pathOk_mono hentry ht))
    · rw [if_pos (by simpa using h2)] at hp
      injection hp with hp
      rw [← hp]
      exact recsOk_mono h ht

theorem foldDeltas_recsOk {t : Int} {args : RunArgs} {σ : MapOrder} {τ : SetOrder}
    {pt ct : GitTree} {cid : String} :
    ∀ (deltas : List Delta) (st ds : DeltaState) (b : Int),
    recsOk b st.change_records → t ≤ b →
    deltas.foldlM (processDelta args σ τ pt ct cid t) st = .ok ds →
    recsOk t ds.change_records := by
  intro deltas
  induction deltas with
  | nil =>
    intro st ds b h ht hp
    simp only [List.foldlM_nil] at hp
    injection hp with hp
    exact hp ▸ recsOk_mono h ht
  | cons d rest ih =>
    intro st ds b h ht hp
    rw [List.foldlM_cons] at hp
    cases hp1 : processDelta args σ τ pt ct cid t st d with
    | error m =>
      rw [hp1] at hp
      exact nomatch hp
    | ok ds1 =>
      rw [hp1] at hp
      exact ih ds1 ds t (processDelta_recsOk h ht hp1) (le_refl t) hp

theorem walkTimes_cons_none {repo : Repo} {i : String} {l : List String}
    (h : findCommit repo i = none) :
    walkTimes repo (i :: l) = walkTimes repo l := by
  simp [walkTimes, List.filterMap_cons, h]

theorem processOid_records {args : RunArgs} {σ : MapOrder} {τ : SetOrder} {repo : Repo}
    {u : String} {s : LoopState} {oid : String} :
    (∀ s2, processOid args σ τ repo u s oid = .cont s2 →
      s2.change_records = s.change_records
      ∨ ∃ c, findCommit repo oid = some c ∧
          ∀ b, recsOk b s.change_records → c.timestamp ≤ b →
            recsOk c.timestamp s2.change_records)
    ∧ (∀ s2, processOid args σ τ repo u s oid = .brk s2 →
        s2.change_records = s.change_records) := by
  simp only [processOid]
  by_cases h1 : oid ∈ args.ignore_revs
  · simp only [if_pos h1]
    exact ⟨fun s2 h => Or.inl (by injection h with h2; rw [← h2]),
      fun s2 h => nomatch h⟩
  · simp only [if_neg h1]
    by_cases h2 : oid = u
    · simp only [if_pos h2]
      exact ⟨fun s2 h => (nomatch h),
        fun s2 h => by injection h with h2; rw [← h2]⟩
    · simp only [if_neg h2]
      cases hf : findCommit repo oid with
      | none => exact ⟨fun s2 h => (nomatch h), fun s2 h => nomatch h⟩
      | some commit =>
        by_cases h3 : args.include_authors ≠ []
            ∧ commit.authorName ∉ args.include_authors
            ∧ commit.authorEmail ∉ args.include_authors
        · simp only [if_pos h3]
          exact ⟨fun s2 h => Or.inl (by injection h with h2; rw [← h2]),
            fun s2 h => nomatch h⟩
        · simp only [if_neg h3]
          cases hp : commit.parents.head? with
          | none =>
            exact ⟨fun s2 h => (nomatch h),
              fun s2 h => by injection h with h2; rw [← h2]⟩
          | some pid =>
            dsimp only
            cases hpf : findCommit repo pid with
            | none =>
              exact ⟨fun s2 h => (nomatch h),
                fun s2 h => by injection h with h2; rw [← h2]⟩
            | some parent_commit =>
              dsimp only
              cases hfold : (diffTrees parent_commit.tree commit.tree).foldlM
                  (processDelta args σ τ parent_commit.tree commit.tree
                    commit.cid commit.timestamp)
                  ⟨s.change_records, if oid ≠ s.prev_oid then [] else s.cached_data, []⟩ with
              | error m => exact ⟨fun s2 h => (nomatch h), fun s2 h => nomatch h⟩
              | ok ds =>
                refine ⟨fun s2 h => ?_, fun s2 h => nomatch h⟩
                injection h with h2
                refine Or.inr ⟨commit, rfl, fun b hok ht => ?_⟩
                rw [← h2]
                exact foldDeltas_recsOk _ _ _ _ hok ht hfold

theorem runWalk_recsOk {args : RunArgs} {σ : MapOrder} {τ : SetOrder} {repo : Repo}
    {u : String} :
    ∀ (oids : List String) (s s2 : LoopState) (b : Int),
    recsOk b s.change_records →
    (∀ t ∈ walkTimes repo oids, t ≤ b) →
    List.Sorted (fun a c : Int => c ≤ a) (walkTimes repo oids) →
    runWalk args σ τ repo u oids s = .ok s2 →
    ∃ b2, recsOk b2 s2.change_records := by
  intro oids
  induction oids with
  | nil =>
    intro s s2 b h _ _ hr
    simp only [runWalk] at hr
    injection hr with hr
    exact ⟨b, hr ▸ h⟩
  | cons oid rest ih =>
    intro s s2 b h hbound hsorted hr
    simp only [runWalk] at hr
    cases hp : processOid args σ τ repo u s oid with
    | fail m => rw [hp] at hr; exact absurd hr (by simp)
    | brk s3 =>
      rw [hp] at hr
      injection hr with hr
      refine ⟨b, ?_⟩
      rw [← hr, processOid_records.2 s3 hp]
      exact h
    | cont s3 =>
      rw [hp] at hr
      rcases processOid_records.1 s3 hp with hsame | ⟨c, hfc, hok⟩
      · refine ih s3 s2 b (hsame ▸ h) ?_ ?_ hr
        · intro t ht
          cases hfo : findCommit repo oid with
          | none => exact hbound t (by rw [walkTimes_cons_none hfo]; exact ht)
          | some c2 =>
            refine hbound t ?_
            rw [walkTimes_cons_some hfo]
            exact List.mem_cons_of_mem _ ht
        · cases hfo : findCommit repo oid with
          | none => rw [walkTimes_cons_none hfo] at hsorted; exact hsorted
          | some c2 =>
            rw [walkTimes_cons_some hfo] at hsorted
            exact (List.sorted_cons.mp hsorted).2
      · rw [walkTimes_cons_some hfc] at hbound hsorted
        have hcb : c.timestamp ≤ b := hbound _ (by simp)
        refine ih s3 s2 c.timestamp (hok b h hcb) ?_ ?_ hr
        · exact fun t ht => (List.sorted_cons.mp hsorted).1 t ht
        · exact (List.sorted_cons.mp hsorted).2

/-- Decidable sufficient check for `TimeMono` on concrete repositories. -/
def timeMonoCheck (repo : Repo) : Bool :=
  repo.commits.all (fun c => c.parents.all (fun p =>
    match findCommit repo p with
    | some cp => decide (cp.timestamp < c.timestamp)
    | none => true))

theorem timeMono_of_check {repo : Repo} (h : timeMonoCheck repo = true) : TimeMono repo := by
  intro c hc p cp hp hf
  have h1 := (List.all_eq_true.mp h) c hc
  have h2 := (List.all_eq_true.mp h1) p hp
  rw [hf] at h2
  exact of_decide_eq_true h2

theorem sorted_le_headD {l : List Int}
    (hs : List.Sorted (fun a c : Int => c ≤ a) l) :
    ∀ t ∈ l, t ≤ l.headD 0 := by
  cases l with
  | nil => intro t ht; simp at ht
  | cons a rest =>
    intro t ht
    rcases List.mem_cons.mp ht with ht | ht
    · subst ht; exact le_refl _
    · exact (List.sorted_cons.mp hs).1 t ht

theorem instList_rev_sorted {l : List ChangeInstant}
    (h : List.Sorted (fun a c : ChangeInstant => c.timestamp ≤ a.timestamp) l) :
    List.Sorted (fun a c : ChangeInstant => a.timestamp ≤ c.timestamp) l.reverse := by
  rw [List.Sorted, List.pairwise_reverse]
  exact h

/-- C5: each finished path timeline is emitted with its primary keys in
lexicographically sorted order, and each record's three event arrays are
serialized as the reverse of their internal append order; because the walk
visits commits newest-first (commit timestamps decreasing toward parents),
the emitted arrays are chronologically ordered oldest-first. -/
theorem C5_sorted_keys_reversed_arrays :
    (∀ (m : PathRecords),
      List.Sorted strLeP ((emitPath m).map Prod.fst)
      ∧ ∀ e ∈ emitPath m, ∃ r, (e.1, r) ∈ m ∧ e.2 = emitRecord r
          ∧ e.2.added = r.added.reverse ∧ e.2.removed = r.removed.reverse
          ∧ e.2.modified = r.modified.reverse)
    ∧ (∀ (args : RunArgs) (σ : MapOrder) (τ : SetOrder) (repo : Repo)
        (recs : AllRecords) (path : String) (out : List (String × EmittedRecord)),
        TimeMono repo →
        runMain args σ τ repo = .ok recs →
        emitOutput recs path = some out →
        ∀ e ∈ out,
          List.Sorted (fun a c : ChangeInstant => a.timestamp ≤ c.timestamp) e.2.added
          ∧ List.Sorted (fun a c : ChangeInstant => a.timestamp ≤ c.timestamp) e.2.removed
          ∧ List.Sorted (fun a c : ChangeInstant => a.timestamp ≤ c.timestamp) e.2.modified) := by
  constructor
  · intro m
    constructor
    · have hs := List.sorted_insertionSort pathRecLe m
      unfold emitPath
      rw [List.map_map]
      have hcomp : (Prod.fst ∘ fun kv : String × ChangeRecord => (kv.1, emitRecord kv.2))
          = Prod.fst := rfl
      rw [hcomp, List.Sorted, List.pairwise_map]
      exact hs
    · intro e he
      unfold emitPath at he
      obtain ⟨kv, hkv, hke⟩ := List.mem_map.mp he
      have hm : kv ∈ m := (List.perm_insertionSort pathRecLe m).mem_iff.mp hkv
      subst hke
      exact ⟨kv.2, hm, rfl, rfl, rfl, rfl⟩
  · intro args σ τ repo recs path out hmono hrun hemit e he
    unfold runMain at hrun
    revert hrun
    cases hu : (match args.untilRev with
         | some u =>
           match findCommit repo u with
           | some c => Except.ok c.cid
           | none => Except.error "Failed to find until commit"
         | none => Except.ok zeroOid) with
    | error m =>
      intro hrun
      exact nomatch hrun
    | ok u =>
      intro hrun
      dsimp only at hrun
      cases hr : runWalk args σ τ repo u (revwalk repo) ⟨[], [], zeroOid⟩ with
      | error m =>
        rw [hr] at hrun
        exact nomatch hrun
      | ok s2 =>
        rw [hr] at hrun
        injection hrun with hrec
        have hsorted := revwalk_times_sorted hmono
        have hbound := sorted_le_headD hsorted
        have hinit : recsOk ((walkTimes repo (revwalk repo)).headD 0) ([] : AllRecords) :=
          fun pm hpm => absurd hpm (by simp)
        obtain ⟨b2, hok⟩ := runWalk_recsOk (revwalk repo) ⟨[], [], zeroOid⟩ s2
          ((walkTimes repo (revwalk repo)).headD 0) hinit hbound hsorted hr
        unfold emitOutput at hemit
        cases hal : alookup path recs with
        | none =>
          rw [hal] at hemit
          exact nomatch hemit
        | some m =>
          rw [hal] at hemit
          injection hemit with hemit
          subst hemit
          obtain ⟨kv, hkv, hke⟩ := List.mem_map.mp he
          have hm : kv ∈ m := (List.perm_insertionSort pathRecLe m).mem_iff.mp hkv
          have hrecm : (path, m) ∈ s2.change_records := by
            rw [hrec]
            exact alookup_mem hal
          have hro : recOk b2 kv.2 := hok (path, m) hrecm kv hm
          subst hke
          exact ⟨instList_rev_sorted hro.1.1, instList_rev_sorted hro.2.1.1,
            instList_rev_sorted hro.2.2.1⟩

/-- Witness for C5: on the lifecycle repository (whose timestamps strictly
decrease toward parents) the emitted record of key `x` at `data.json` has
chronologically ordered arrays. -/
theorem C5_sorted_keys_reversed_arrays_witness :
    TimeMono exLifecycleRepo
    ∧ (List.Sorted (fun a c : ChangeInstant => a.timestamp ≤ c.timestamp)
        (EmittedRecord.mk [] [⟨"C3", 3⟩] [⟨"C2", 2⟩]).added
      ∧ List.Sorted (fun a c : ChangeInstant => a.timestamp ≤ c.timestamp)
          (EmittedRecord.mk [] [⟨"C3", 3⟩] [⟨"C2", 2⟩]).removed
      ∧ List.Sorted (fun a c : ChangeInstant => a.timestamp ≤ c.timestamp)
          (EmittedRecord.mk [] [⟨"C3", 3⟩] [⟨"C2", 2⟩]).modified) :=
  ⟨timeMono_of_check (by decide),
    C5_sorted_keys_reversed_arrays.2 exArgs id id exLifecycleRepo exLifecycleRecords
      "data.json"
      [("x", ⟨[], [⟨"C3", 3⟩], [⟨"C2", 2⟩]⟩), ("y", ⟨[⟨"C2", 2⟩], [], []⟩)]
      (timeMono_of_check (by decide)) (by rfl) (by rfl)
      ("x", ⟨[], [⟨"C3", 3⟩], [⟨"C2", 2⟩]⟩) (by decide)⟩

theorem alookup_update (m : PathRecords) (k k2 : String) (ci : ChangeInstant)
    (t : ChangeType) :
    alookup k2 (update_change_record_entry m k ci t)
      = if k = k2 then some (pushInstant ((alookup k2 m).getD emptyChangeRecord) ci t)
        else alookup k2 m := by
  induction m with
  | nil =>
    simp only [update_change_record_entry, alookup]
    by_cases h : k = k2
    · subst h; simp
    · simp [h]
  | cons p rest ih =>
    obtain ⟨k3, r⟩ := p
    simp only [update_change_record_entry]
    by_cases h3 : k3 = k
    · subst h3
      by_cases h2 : k3 = k2
      · subst h2
        simp [alookup]
      · simp [alookup, h2]
    · simp only [if_neg h3, alookup]
      by_cases h2 : k3 = k2
      · subst h2
        rw [if_pos rfl, if_pos rfl, if_neg (fun hh => h3 hh.symm)]
      · rw [if_neg h2, if_neg h2, ih]

theorem keys_update (m : PathRecords) (k : String) (ci : ChangeInstant) (t : ChangeType) :
    (update_change_record_entry m k ci t).map Prod.fst
      = if k ∈ m.map Prod.fst then m.map Prod.fst else m.map Prod.fst ++ [k] := by
  induction m with
  | nil => simp [update_change_record_entry]
  | cons p rest ih =>
    obtain ⟨k2, r⟩ := p
    by_cases h : k2 = k
    · subst h; simp [update_change_record_entry]
    · simp only [update_change_record_entry, if_neg h, List.map_cons]
      rw [ih]
      by_cases h2 : k ∈ rest.map Prod.fst
      · simp [h2, Ne.symm h]
      · simp [h2, Ne.symm h]

theorem keys_update_mem (m : PathRecords) (k k2 : String) (ci : ChangeInstant)
    (t : ChangeType) :
    k2 ∈ (update_change_record_entry m k ci t).map Prod.fst
      ↔ k2 ∈ m.map Prod.fst ∨ k2 = k := by
  rw [keys_update]
  by_cases h : k ∈ m.map Prod.fst
  · simp only [if_pos h]
    constructor
    · exact Or.inl
    · rintro (hm | hm)
      · exact hm
      · exact hm ▸ h
  · simp [if_neg h]

theorem keys_update_nodup {m : PathRecords} (k : String) (ci : ChangeInstant)
    (t : ChangeType) (h : (m.map Prod.fst).Nodup) :
    ((update_change_record_entry m k ci t).map Prod.fst).Nodup := by
  rw [keys_update]
  by_cases h2 : k ∈ m.map Prod.fst
  · simpa [h2]
  · simp only [h2, if_false]
    have hd : List.Disjoint (m.map Prod.fst) [k] := by
      intro a ha hb
      simp only [List.mem_singleton] at hb
      subst hb
      exact h2 ha
    exact List.nodup_append.mpr ⟨h, List.nodup_singleton _, hd⟩

theorem alookup_applyEvents (ci : ChangeInstant) :
    ∀ (evs : List (String × ChangeType)) (m : PathRecords),
    ((evs.map Prod.fst).Nodup) →
    ∀ k, alookup k (applyEvents m ci evs)
      = match alookup k evs with
        | some t => some (pushInstant ((alookup k m).getD emptyChangeRecord) ci t)
        | none => alookup k m := by
  intro evs
  induction evs with
  | nil => intro m _ k; rfl
  | cons e rest ih =>
    obtain ⟨k0, t0⟩ := e
    intro m hnd k
    simp only [List.map_cons, List.nodup_cons] at hnd
    simp only [applyEvents, List.foldl_cons]
    have hrec := ih (update_change_record_entry m k0 ci t0) hnd.2 k
    rw [show (List.foldl (fun acc e => update_change_record_entry acc e.1 ci e.2)
        (update_change_record_entry m k0 ci t0) rest)
      = applyEvents (update_change_record_entry m k0 ci t0) ci rest from rfl]
    rw [hrec]
    by_cases hk : k0 = k
    · subst hk
      have hnone : alookup k0 rest = none := by
        rw [alookup_eq_none_iff_not_mem]
        exact hnd.1
      rw [hnone]
      simp only [alookup, if_pos rfl]
      rw [alookup_update]
      simp
    · simp only [alookup, if_neg hk]
      cases hr : alookup k rest with
      | some t =>
        rw [alookup_update, if_neg hk]
      | none =>
        rw [alookup_update, if_neg hk]

theorem keys_applyEvents_mem (ci : ChangeInstant) :
    ∀ (evs : List (String × ChangeType)) (m : PathRecords) (k : String),
    k ∈ (applyEvents m ci evs).map Prod.fst
      ↔ k ∈ m.map Prod.fst ∨ k ∈ evs.map Prod.fst := by
  intro evs
  induction evs with
  | nil => intro m k; simp [applyEvents]
  | cons e rest ih =>
    obtain ⟨k0, t0⟩ := e
    intro m k
    simp only [applyEvents, List.foldl_cons]
    rw [show (List.foldl (fun acc e => update_change_record_entry acc e.1 ci e.2)
        (update_change_record_entry m k0 ci t0) rest)
      = applyEvents (update_change_record_entry m k0 ci t0) ci rest from rfl]
    rw [ih]
    rw [keys_update_mem]
    simp only [List.map_cons, List.mem_cons]
    constructor
    · rintro ((h | h) | h)
      · exact Or.inl h
      · exact Or.inr (Or.inl h)
      · exact Or.inr (Or.inr h)
    · rintro (h | h | h)
      · exact Or.inl (Or.inl h)
      · exact Or.inl (Or.inr h)
      · exact Or.inr h

theorem keys_applyEvents_nodup (ci : ChangeInstant) :
    ∀ (evs : List (String × ChangeType)) (m : PathRecords),
    ((m.map Prod.fst).Nodup) →
    ((applyEvents m ci evs).map Prod.fst).Nodup := by
  intro evs
  induction evs with
  | nil => intro m h; exact h
  | cons e rest ih =>
    obtain ⟨k0, t0⟩ := e
    intro m h
    simp only [applyEvents, List.foldl_cons]
    rw [show (List.foldl (fun acc e => update_change_record_entry acc e.1 ci e.2)
        (update_change_record_entry m k0 ci t0) rest)
      = applyEvents (update_change_record_entry m k0 ci t0) ci rest from rfl]
    exact ih _ (keys_update_nodup k0 ci t0 h)

theorem alookup_eq_of_perm {β : Type} {l1 l2 : List (String × β)}
    (hperm : l1.Perm l2) (hnd : (l1.map Prod.fst).Nodup) (k : String) :
    alookup k l1 = alookup k l2 := by
  have hnd2 : (l2.map Prod.fst).Nodup := ((hperm.map Prod.fst).nodup_iff).mp hnd
  cases h1 : alookup k l1 with
  | some v =>
    have := (mem_iff_alookup_of_nodup hnd2 k v).mp (hperm.mem_iff.mp (alookup_mem h1))
    rw [this]
  | none =>
    rw [alookup_eq_none_iff_not_mem] at h1
    cases h2 : alookup k l2 with
    | some v =>
      exact absurd ((hperm.map Prod.fst).mem_iff.mpr
        (List.mem_map.mpr ⟨(k, v), alookup_mem h2, rfl⟩)) h1
    | none => rfl

/-- Two per-path timeline maps that differ only in entry order: same key
set (without duplicates) and the same record under every key.  The
residual nondeterminism a `HashMap` leaves behind. -/
def pathEquiv (m1 m2 : PathRecords) : Prop :=
  (m1.map Prod.fst).Nodup
  ∧ (m1.map Prod.fst).Perm (m2.map Prod.fst)
  ∧ ∀ k, alookup k m1 = alookup k m2

/-- Accumulated timelines of two runs: identical path sequence and
order-equivalent per-path maps. -/
def recsEquiv (r1 r2 : AllRecords) : Prop :=
  r1.map Prod.fst = r2.map Prod.fst
  ∧ ∀ p m1 m2, alookup p r1 = some m1 → alookup p r2 = some m2 → pathEquiv m1 m2

theorem pathEquiv_nil : pathEquiv [] [] :=
  ⟨List.nodup_nil, List.Perm.refl _, fun k => rfl⟩

theorem recsEquiv_nil : recsEquiv [] [] :=
  ⟨rfl, fun p m1 m2 h1 _ => absurd h1 (by simp [alookup])⟩

theorem recsEquiv_isSome {r1 r2 : AllRecords} (h : recsEquiv r1 r2) (p : String) :
    (alookup p r1).isSome = (alookup p r2).isSome := by
  cases h1 : (alookup p r1).isSome with
  | true =>
    rw [alookup_isSome_iff_mem, h.1, ← alookup_isSome_iff_mem] at h1
    rw [h1]
  | false =>
    have : ¬ (alookup p r1).isSome = true := by rw [h1]; simp
    rw [alookup_isSome_iff_mem, h.1, ← alookup_isSome_iff_mem] at this
    cases h2 : (alookup p r2).isSome with
    | true => exact absurd h2 this
    | false => rfl

theorem pathEquiv_applyEvents {m1 m2 : PathRecords} {ev1 ev2 : List (String × ChangeType)}
    {ci : ChangeInstant} (hm : pathEquiv m1 m2) (hev : ev1.Perm ev2)
    (hnd : (ev1.map Prod.fst).Nodup) :
    pathEquiv (applyEvents m1 ci ev1) (applyEvents m2 ci ev2) := by
  obtain ⟨hnd1, hperm, hlook⟩ := hm
  have hndev2 : (ev2.map Prod.fst).Nodup := ((hev.map Prod.fst).nodup_iff).mp hnd
  have hnd2 : (m2.map Prod.fst).Nodup := hperm.nodup_iff.mp hnd1
  refine ⟨keys_applyEvents_nodup ci ev1 m1 hnd1, ?_, ?_⟩
  · refine (List.perm_ext_iff_of_nodup (keys_applyEvents_nodup ci ev1 m1 hnd1)
      (keys_applyEvents_nodup ci ev2 m2 hnd2)).mpr ?_
    intro k
    rw [keys_applyEvents_mem, keys_applyEvents_mem]
    constructor
    · rintro (h | h)
      · exact Or.inl (hperm.mem_iff.mp h)
      · exact Or.inr ((hev.map Prod.fst).mem_iff.mp h)
    · rintro (h | h)
      · exact Or.inl (hperm.mem_iff.mpr h)
      · exact Or.inr ((hev.map Prod.fst).mem_iff.mpr h)
  · intro k
    rw [alookup_applyEvents ci ev1 m1 hnd k, alookup_applyEvents ci ev2 m2 hndev2 k]
    rw [alookup_eq_of_perm hev hnd k, hlook k]

theorem mapEvents_perm {σ1 σ2 : MapOrder} (h1 : ∀ l, (σ1 l).Perm l)
    (h2 : ∀ l, (σ2 l).Perm l) (m : RecordMap) (t0 : ChangeType) :
    ((σ1 m).map (fun (kv : String × Json) => (kv.1, t0))).Perm
      ((σ2 m).map (fun (kv : String × Json) => (kv.1, t0))) :=
  ((h1 m).map _).trans ((h2 m).map _).symm

theorem nodup_of_nodup_keys {β : Type} {l : List (String × β)}
    (h : (l.map Prod.fst).Nodup) : l.Nodup := by
  exact h.of_map Prod.fst

theorem modifiedEvents_perm {old_content new_content : RecordMap}
    {σ1 σ2 : MapOrder} {τ1 τ2 : SetOrder}
    (hσ1 : ∀ l, (σ1 l).Perm l) (hτ1 : ∀ l, (τ1 l).Perm l)
    (hσ2 : ∀ l, (σ2 l).Perm l) (hτ2 : ∀ l, (τ2 l).Perm l)
    (hold : (old_content.map Prod.fst).Nodup)
    (hnew : (new_content.map Prod.fst).Nodup) :
    (modifiedEvents old_content new_content σ1 τ1).Perm
      (modifiedEvents old_content new_content σ2 τ2) := by
  have hnd1 := modifiedEvents_nodup hσ1 hτ1 hold hnew
  have hnd2 := modifiedEvents_nodup hσ2 hτ2 hold hnew
  refine (List.perm_ext_iff_of_nodup (nodup_of_nodup_keys hnd1)
    (nodup_of_nodup_keys hnd2)).mpr ?_
  intro x
  obtain ⟨k, t⟩ := x
  rw [modifiedEvents_mem hσ1 hτ1 hold k t, modifiedEvents_mem hσ2 hτ2 hold k t]

theorem alookup_append {β : Type} (k : String) :
    ∀ (l1 l2 : List (String × β)),
    alookup k (l1 ++ l2)
      = match alookup k l1 with
        | some v => some v
        | none => alookup k l2 := by
  intro l1
  induction l1 with
  | nil => intro l2; rfl
  | cons p rest ih =>
    obtain ⟨k2, v⟩ := p
    intro l2
    simp only [List.cons_append, alookup, List.append_eq]
    by_cases h : k2 = k
    · rw [if_pos h, if_pos h]
    · rw [if_neg h, if_neg h, ih]

theorem recsEquiv_insertRM {r1 r2 : AllRecords} {m1 m2 : PathRecords} {path : String}
    (h : recsEquiv r1 r2) (hm : pathEquiv m1 m2) :
    recsEquiv (insertRM r1 path m1) (insertRM r2 path m2) := by
  constructor
  · rw [keys_insertRM, keys_insertRM, h.1]
  · intro p pm1 pm2 hp1 hp2
    rw [alookup_insertRM] at hp1 hp2
    by_cases hp : path = p
    · rw [if_pos hp] at hp1 hp2
      injection hp1 with hp1
      injection hp2 with hp2
      rw [← hp1, ← hp2]
      exact hm
    · rw [if_neg hp] at hp1 hp2
      exact h.2 p pm1 pm2 hp1 hp2

theorem recsEquiv_entryInit {r1 r2 : AllRecords} (h : recsEquiv r1 r2) (path : String) :
    recsEquiv (entryInit r1 path) (entryInit r2 path) := by
  unfold entryInit
  rw [← recsEquiv_isSome h path]
  by_cases hp : (alookup path r1).isSome
  · rw [if_pos hp, if_pos hp]
    exact h
  · rw [if_neg hp, if_neg hp]
    constructor
    · simp only [List.map_append]
      rw [h.1]
    · intro p pm1 pm2 hp1 hp2
      rw [alookup_append] at hp1 hp2
      cases hq1 : alookup p r1 with
      | some m =>
        rw [hq1] at hp1
        have hq2s : (alookup p r2).isSome = true := by
          rw [← recsEquiv_isSome h p, hq1]
          rfl
        obtain ⟨m2x, hq2⟩ := Option.isSome_iff_exists.mp hq2s
        rw [hq2] at hp2
        injection hp1 with hp1
        injection hp2 with hp2
        rw [← hp1, ← hp2]
        exact h.2 p m m2x hq1 hq2
      | none =>
        have hq2 : alookup p r2 = none := by
          have := recsEquiv_isSome h p
          rw [hq1] at this
          cases hx : alookup p r2 with
          | none => rfl
          | some m => rw [hx] at this; exact absurd this.symm (by simp)
        rw [hq1] at hp1
        rw [hq2] at hp2
        simp only [alookup] at hp1 hp2
        by_cases hpp : path = p
        · rw [if_pos hpp] at hp1 hp2
          injection hp1 with hp1
          injection hp2 with hp2
          rw [← hp1, ← hp2]
          exact pathEquiv_nil
        · rw [if_neg hpp] at hp1 hp2
          exact absurd hp1 (by simp [alookup])

theorem recsEquiv_entry {r1 r2 : AllRecords} (h : recsEquiv r1 r2) (p : String) :
    pathEquiv ((alookup p r1).getD []) ((alookup p r2).getD []) := by
  cases hq1 : alookup p r1 with
  | some m1 =>
    have hq2s : (alookup p r2).isSome = true := by
      rw [← recsEquiv_isSome h p, hq1]
      rfl
    obtain ⟨m2, hq2⟩ := Option.isSome_iff_exists.mp hq2s
    rw [hq2]
    exact h.2 p m1 m2 hq1 hq2
  | none =>
    have hq2 : alookup p r2 = none := by
      have := recsEquiv_isSome h p
      rw [hq1] at this
      cases hx : alookup p r2 with
      | none => rfl
      | some m => rw [hx] at this; exact absurd this.symm (by simp)
    rw [hq2]
    exact pathEquiv_nil

/-- Strict key order on timeline entries, used to show two sorted
duplicate-free key sequences coincide. -/
def pathRecLt (a b : String × ChangeRecord) : Prop := strLeP a.1 b.1 ∧ a.1 ≠ b.1

instance : IsAntisymm (String × ChangeRecord) pathRecLt :=
  ⟨fun a b h1 h2 => (h1.2 (IsAntisymm.antisymm a.1 b.1 h1.1 h2.1)).elim⟩

theorem emitPath_eq_of_equiv {m1 m2 : PathRecords} (h : pathEquiv m1 m2) :
    emitPath m1 = emitPath m2 := by
  obtain ⟨hnd1, hkperm, hlook⟩ := h
  have hnd2 : (m2.map Prod.fst).Nodup := hkperm.nodup_iff.mp hnd1
  have hpairs : m1.Perm m2 := by
    refine (List.perm_ext_iff_of_nodup (nodup_of_nodup_keys hnd1)
      (nodup_of_nodup_keys hnd2)).mpr ?_
    intro x
    obtain ⟨k, r⟩ := x
    rw [mem_iff_alookup_of_nodup hnd1, mem_iff_alookup_of_nodup hnd2, hlook k]
  have hperm2 : (List.insertionSort pathRecLe m1).Perm (List.insertionSort pathRecLe m2) :=
    (List.perm_insertionSort _ _).trans (hpairs.trans (List.perm_insertionSort _ _).symm)
  have hstrict1 : List.Sorted pathRecLt (List.insertionSort pathRecLe m1) := by
    have hs := List.sorted_insertionSort pathRecLe m1
    have hndk : ((List.insertionSort pathRecLe m1).map Prod.fst).Nodup :=
      (((List.perm_insertionSort pathRecLe m1).map Prod.fst).nodup_iff).mpr hnd1
    rw [List.Sorted]
    have hne : List.Pairwise (fun a b : String × ChangeRecord => a.1 ≠ b.1)
        (List.insertionSort pathRecLe m1) := List.pairwise_map.mp hndk
    exact hs.and hne
  have hstrict2 : List.Sorted pathRecLt (List.insertionSort pathRecLe m2) := by
    have hs := List.sorted_insertionSort pathRecLe m2
    have hndk : ((List.insertionSort pathRecLe m2).map Prod.fst).Nodup :=
      (((List.perm_insertionSort pathRecLe m2).map Prod.fst).nodup_iff).mpr hnd2
    rw [List.Sorted]
    have hne : List.Pairwise (fun a b : String × ChangeRecord => a.1 ≠ b.1)
        (List.insertionSort pathRecLe m2) := List.pairwise_map.mp hndk
    exact hs.and hne
  unfold emitPath
  rw [List.eq_of_perm_of_sorted hperm2 hstrict1 hstrict2]

theorem processDeltaNoCache_equiv {args : RunArgs} {σ1 σ2 : MapOrder} {τ1 τ2 : SetOrder}
    (hσ1 : ∀ l, (σ1 l).Perm l) (hτ1 : ∀ l, (τ1 l).Perm l)
    (hσ2 : ∀ l, (σ2 l).Perm l) (hτ2 : ∀ l, (τ2 l).Perm l)
    {pt ct : GitTree} {cid : String} {t : Int} {r1 r2 : AllRecords} (d : Delta)
    (h : recsEquiv r1 r2) :
    (∃ m, processDeltaNoCache args σ1 τ1 pt ct cid t r1 d = .error m
        ∧ processDeltaNoCache args σ2 τ2 pt ct cid t r2 d = .error m)
    ∨ (∃ q1 q2, processDeltaNoCache args σ1 τ1 pt ct cid t r1 d = .ok q1
        ∧ processDeltaNoCache args σ2 τ2 pt ct cid t r2 d = .ok q2
        ∧ recsEquiv q1 q2) := by
  simp only [processDeltaNoCache]
  by_cases h1 : d.oldPath ≠ d.newPath
  · simp only [if_pos h1]
    exact Or.inl ⟨_, rfl, rfl⟩
  · simp only [if_neg h1]
    by_cases h2 : args.includeMatch d.oldPath
    · rw [if_neg (by simpa using h2), if_neg (by simpa using h2)]
      have hinit := recsEquiv_entryInit h d.newPath
      have hentry := recsEquiv_entry hinit d.newPath
      cases hd : d.status with
      | added =>
        dsimp only
        cases hg : get_json_data ct d.newPath args.primary_key with
        | error m =>
          exact Or.inl ⟨m, rfl, rfl⟩
        | ok nc =>
          simp only [Except.bind]
          refine Or.inr ⟨_, _, rfl, rfl, ?_⟩
          refine recsEquiv_insertRM hinit (pathEquiv_applyEvents hentry
            (mapEvents_perm hσ1 hσ2 nc ChangeType.added) ?_)
          rw [mapEvents_keys]
          exact (((hσ1 nc).map Prod.fst).nodup_iff).mpr (get_json_data_nodup hg)
      | deleted =>
        dsimp only
        cases hg : get_json_data pt d.oldPath args.primary_key with
        | error m =>
          exact Or.inl ⟨m, rfl, rfl⟩
        | ok oc =>
          simp only [Except.bind]
          refine Or.inr ⟨_, _, rfl, rfl, ?_⟩
          refine recsEquiv_insertRM hinit (pathEquiv_applyEvents hentry
            (mapEvents_perm hσ1 hσ2 oc ChangeType.removed) ?_)
          rw [mapEvents_keys]
          exact (((hσ1 oc).map Prod.fst).nodup_iff).mpr (get_json_data_nodup hg)
      | modified =>
        dsimp only
        cases hg : get_json_data ct d.newPath args.primary_key with
        | error m =>
          exact Or.inl ⟨m, rfl, rfl⟩
        | ok nc =>
          simp only [Except.bind]
          cases hg2 : get_json_data pt d.oldPath args.primary_key with
          | error m =>
            exact Or.inl ⟨m, rfl, rfl⟩
          | ok oc =>
            simp only [Except.bind]
            refine Or.inr ⟨_, _, rfl, rfl, ?_⟩
            exact recsEquiv_insertRM hinit (pathEquiv_applyEvents hentry
              (modifiedEvents_perm hσ1 hτ1 hσ2 hτ2
                (get_json_data_nodup hg2) (get_json_data_nodup hg))
              ((modifiedEvents_nodup hσ1 hτ1
                (get_json_data_nodup hg2) (get_json_data_nodup hg))))
    · rw [if_pos (by simpa using h2), if_pos (by simpa using h2)]
      exact Or.inr ⟨r1, r2, rfl, rfl, h⟩

theorem foldDeltasNoCache_equiv {args : RunArgs} {σ1 σ2 : MapOrder} {τ1 τ2 : SetOrder}
    (hσ1 : ∀ l, (σ1 l).Perm l) (hτ1 : ∀ l, (τ1 l).Perm l)
    (hσ2 : ∀ l, (σ2 l).Perm l) (hτ2 : ∀ l, (τ2 l).Perm l)
    {pt ct : GitTree} {cid : String} {t : Int} :
    ∀ (deltas : List Delta) (r1 r2 : AllRecords), recsEquiv r1 r2 →
    (∃ m, deltas.foldlM (processDeltaNoCache args σ1 τ1 pt ct cid t) r1 = .error m
        ∧ deltas.foldlM (processDeltaNoCache args σ2 τ2 pt ct cid t) r2 = .error m)
    ∨ (∃ q1 q2, deltas.foldlM (processDeltaNoCache args σ1 τ1 pt ct cid t) r1 = .ok q1
        ∧ deltas.foldlM (processDeltaNoCache args σ2 τ2 pt ct cid t) r2 = .ok q2
        ∧ recsEquiv q1 q2) := by
  intro deltas
  induction deltas with
  | nil =>
    intro r1 r2 h
    exact Or.inr ⟨r1, r2, rfl, rfl, h⟩
  | cons d rest ih =>
    intro r1 r2 h
    rw [List.foldlM_cons, List.foldlM_cons]
    rcases processDeltaNoCache_equiv hσ1 hτ1 hσ2 hτ2 d h with
      ⟨m, he1, he2⟩ | ⟨q1, q2, ho1, ho2, hq⟩
    · rw [he1, he2]
      exact Or.inl ⟨m, rfl, rfl⟩
    · rw [ho1, ho2]
      rcases ih q1 q2 hq with ⟨m, he1, he2⟩ | ⟨w1, w2, hw1, hw2, hw⟩
      · exact Or.inl ⟨m, by simpa using he1, by simpa using he2⟩
      · exact Or.inr ⟨w1, w2, by simpa using hw1, by simpa using hw2, hw⟩

theorem processOidNoCache_equiv {args : RunArgs} {σ1 σ2 : MapOrder} {τ1 τ2 : SetOrder}
    (hσ1 : ∀ l, (σ1 l).Perm l) (hτ1 : ∀ l, (τ1 l).Perm l)
    (hσ2 : ∀ l, (σ2 l).Perm l) (hτ2 : ∀ l, (τ2 l).Perm l)
    {repo : Repo} {u : String} {r1 r2 : AllRecords} (oid : String)
    (h : recsEquiv r1 r2) :
    (∃ q1 q2, processOidNoCache args σ1 τ1 repo u r1 oid = .cont q1
        ∧ processOidNoCache args σ2 τ2 repo u r2 oid = .cont q2 ∧ recsEquiv q1 q2)
    ∨ (∃ q1 q2, processOidNoCache args σ1 τ1 repo u r1 oid = .brk q1
        ∧ processOidNoCache args σ2 τ2 repo u r2 oid = .brk q2 ∧ recsEquiv q1 q2)
    ∨ (∃ m, processOidNoCache args σ1 τ1 repo u r1 oid = .fail m
        ∧ processOidNoCache args σ2 τ2 repo u r2 oid = .fail m) := by
  simp only [processOidNoCache]
  by_cases h1 : oid ∈ args.ignore_revs
  · simp only [if_pos h1]
    exact Or.inl ⟨r1, r2, rfl, rfl, h⟩
  · simp only [if_neg h1]
    by_cases h2 : oid = u
    · simp only [if_pos h2]
      exact Or.inr (Or.inl ⟨r1, r2, rfl, rfl, h⟩)
    · simp only [if_neg h2]
      cases hf : findCommit repo oid with
      | none => exact Or.inr (Or.inr ⟨_, rfl, rfl⟩)
      | some commit =>
        by_cases h3 : args.include_authors ≠ []
            ∧ commit.authorName ∉ args.include_authors
            ∧ commit.authorEmail ∉ args.include_authors
        · simp only [if_pos h3]
          exact Or.inl ⟨r1, r2, rfl, rfl, h⟩
        · simp only [if_neg h3]
          cases hp : commit.parents.head? with
          | none => exact Or.inr (Or.inl ⟨r1, r2, rfl, rfl, h⟩)
          | some pid =>
            dsimp only
            cases hpf : findCommit repo pid with
            | none => exact Or.inr (Or.inl ⟨r1, r2, rfl, rfl, h⟩)
            | some parent_commit =>
              dsimp only
              rcases foldDeltasNoCache_equiv hσ1 hτ1 hσ2 hτ2
                  (diffTrees parent_commit.tree commit.tree) r1 r2 h with
                ⟨m, he1, he2⟩ | ⟨q1, q2, ho1, ho2, hq⟩
              · rw [he1, he2]
                exact Or.inr (Or.inr ⟨m, rfl, rfl⟩)
              · rw [ho1, ho2]
                exact Or.inl ⟨q1, q2, rfl, rfl, hq⟩

theorem runWalkNoCache_equiv {args : RunArgs} {σ1 σ2 : MapOrder} {τ1 τ2 : SetOrder}
    (hσ1 : ∀ l, (σ1 l).Perm l) (hτ1 : ∀ l, (τ1 l).Perm l)
    (hσ2 : ∀ l, (σ2 l).Perm l) (hτ2 : ∀ l, (τ2 l).Perm l)
    {repo : Repo} {u : String} :
    ∀ (oids : List String) (r1 r2 : AllRecords), recsEquiv r1 r2 →
    (∃ m, runWalkNoCache args σ1 τ1 repo u oids r1 = .error m
        ∧ runWalkNoCache args σ2 τ2 repo u oids r2 = .error m)
    ∨ (∃ q1 q2, runWalkNoCache args σ1 τ1 repo u oids r1 = .ok q1
        ∧ runWalkNoCache args σ2 τ2 repo u oids r2 = .ok q2 ∧ recsEquiv q1 q2) := by
  intro oids
  induction oids with
  | nil =>
    intro r1 r2 h
    exact Or.inr ⟨r1, r2, rfl, rfl, h⟩
  | cons oid rest ih =>
    intro r1 r2 h
    simp only [runWalkNoCache]
    rcases processOidNoCache_equiv hσ1 hτ1 hσ2 hτ2 oid h with
      ⟨q1, q2, hc1, hc2, hq⟩ | ⟨q1, q2, hb1, hb2, hq⟩ | ⟨m, hf1, hf2⟩
    · rw [hc1, hc2]
      exact ih q1 q2 hq
    · rw [hb1, hb2]
      exact Or.inr ⟨q1, q2, rfl, rfl, hq⟩
    · rw [hf1, hf2]
      exact Or.inl ⟨m, rfl, rfl⟩

theorem emitOutput_eq_of_equiv {r1 r2 : AllRecords} (h : recsEquiv r1 r2)
    (path : String) : emitOutput r1 path = emitOutput r2 path := by
  unfold emitOutput
  cases hq1 : alookup path r1 with
  | none =>
    have hq2 : alookup path r2 = none := by
      have := recsEquiv_isSome h path
      rw [hq1] at this
      cases hx : alookup path r2 with
      | none => rfl
      | some m => rw [hx] at this; exact absurd this.symm (by simp)
    rw [hq2]
  | some m1 =>
    have hq2s : (alookup path r2).isSome = true := by
      rw [← recsEquiv_isSome h path, hq1]
      rfl
    obtain ⟨m2, hq2⟩ := Option.isSome_iff_exists.mp hq2s
    rw [hq2]
    have hpe := emitPath_eq_of_equiv (h.2 path m1 m2 hq1 hq2)
    simp only [Option.map]
    rw [hpe]

theorem runMainNoCache_equiv {args : RunArgs} {σ1 σ2 : MapOrder} {τ1 τ2 : SetOrder}
    (hσ1 : ∀ l, (σ1 l).Perm l) (hτ1 : ∀ l, (τ1 l).Perm l)
    (hσ2 : ∀ l, (σ2 l).Perm l) (hτ2 : ∀ l, (τ2 l).Perm l) (repo : Repo) :
    (∃ m, runMainNoCache args σ1 τ1 repo = .error m
        ∧ runMainNoCache args σ2 τ2 repo = .error m)
    ∨ (∃ q1 q2, runMainNoCache args σ1 τ1 repo = .ok q1
        ∧ runMainNoCache args σ2 τ2 repo = .ok q2 ∧ recsEquiv q1 q2) := by
  unfold runMainNoCache
  cases hu : (match args.untilRev with
         | some u =>
           match findCommit repo u with
           | some c => Except.ok c.cid
           | none => Except.error "Failed to find until commit"
         | none => Except.ok zeroOid) with
  | error m => exact Or.inl ⟨m, rfl, rfl⟩
  | ok u =>
    dsimp only
    exact runWalkNoCache_equiv hσ1 hτ1 hσ2 hτ2 (revwalk repo) [] [] recsEquiv_nil

/-- C8: the emitted output is a deterministic function of the repository
and the arguments, despite the unspecified iteration order of Rust's hash
containers.  For any two runs whose HashMap and HashSet iteration-order
oracles are arbitrary permutations, every path's output file content (and
every failure) is identical: per-key event vectors receive at most one
append per commit in deterministic walk order, and output keys are sorted
before serialization. -/
theorem C8_output_deterministic (args : RunArgs) (repo : Repo)
    (σ1 σ2 : MapOrder) (τ1 τ2 : SetOrder)
    (hσ1 : ∀ l, (σ1 l).Perm l) (hτ1 : ∀ l, (τ1 l).Perm l)
    (hσ2 : ∀ l, (σ2 l).Perm l) (hτ2 : ∀ l, (τ2 l).Perm l)
    (hzero : ∀ c ∈ repo.commits, c.cid ≠ zeroOid) :
    ∀ path,
    (runMain args σ1 τ1 repo).map (fun recs => emitOutput recs path)
      = (runMain args σ2 τ2 repo).map (fun recs => emitOutput recs path) := by
  intro path
  rw [runMain_eq_noCache args σ1 τ1 repo hzero, runMain_eq_noCache args σ2 τ2 repo hzero]
  rcases runMainNoCache_equiv hσ1 hτ1 hσ2 hτ2 repo with
    ⟨m, h1, h2⟩ | ⟨q1, q2, h1, h2, hq⟩
  · rw [h1, h2]
  · rw [h1, h2]
    simp only [Except.map]
    rw [emitOutput_eq_of_equiv hq path]

/-- Witness for C8: a run iterating every hash container in reversed order
produces the same `data.json` output as the canonical-order run on the
lifecycle repository. -/
theorem C8_output_deterministic_witness :
    (∀ l : RecordMap, (List.reverse l).Perm l)
    ∧ (∀ c ∈ exLifecycleRepo.commits, c.cid ≠ zeroOid)
    ∧ (runMain exArgs List.reverse List.reverse exLifecycleRepo).map
        (fun recs => emitOutput recs "data.json")
      = (runMain exArgs id id exLifecycleRepo).map
        (fun recs => emitOutput recs "data.json") :=
  ⟨fun l => l.reverse_perm, by decide,
    C8_output_deterministic exArgs exLifecycleRepo List.reverse id List.reverse id
      (fun l => l.reverse_perm) (fun l => l.reverse_perm)
      (fun l => List.Perm.refl l) (fun l => List.Perm.refl l)
      (by decide) "data.json"⟩
